import Mathlib

/-!
# walnut lexer (`parser/lexer.go`, `parser/token.go`, `parser/position.go`)

A shallow embedding of the lexer of the walnut event-block language and the
properties proved about it.

Conventions of the embedding:

* the input of `Lex` is the rune sequence `[]rune(script)`; a Lean `Char` is a
  Unicode scalar value, which is what that conversion yields;
* the lexer state `Lexer` is passed explicitly; the linked stream hanging off
  `head.Next` is the list `toks`, and `curt` is its last node;
* a read `l.chars[l.pos]` or `num[len(num)-1]` outside the slice is a Go
  run-time panic, and is an explicit outcome here (`Fault.indexOutOfRange`,
  `Fault.numIndexOutOfRange`);
* the `for` loops are recursive functions with a step budget; `Lex` and the
  handlers hand them `len(l.chars) + 1` steps, and running out of steps is
  the outcome `Fault.outOfFuel`.
-/

namespace Walnut

/-! ## Data model (`token.go`, `position.go`) -/

/-- The kinds of token, `TokenKind` of `token.go`. -/
inductive TokenKind
  | Illegal
  | Eof
  | Whitespace
  | Ident
  | String
  | Integer
  | Float
  | Lcb
  | Rcb
  | Assign
  deriving DecidableEq

/-- A span of character offsets, `Position` of `position.go`. -/
structure Position where
  StartedAt : Nat
  EndedAt : Nat
  deriving DecidableEq

/-- A token, `Token` of `token.go`; the `Next` link is the order of the stream. -/
structure Token where
  Pos : Position
  Kind : TokenKind
  Raw : List Char
  deriving DecidableEq

/-- The options of a call, `LexOptions`. -/
structure LexOptions where
  Clean : Bool
  deriving DecidableEq

/-- The error values built with `fmt.Errorf` in `lexer.go`. -/
inductive LexError
  /-- The message "unexpected char: at=%v" of `Lex`. -/
  | unexpectedCharAt (pos : Nat)
  /-- The message "unexpected char: want=%v, got=%v" of `expect`. -/
  | unexpectedCharWantGot (want got : Char)
  /-- The message "string without closing dq: at=%v". -/
  | stringWithoutClosingDq (pos : Nat)
  /-- The message "numeric started with dot: at=%v". -/
  | numericStartedWithDot (pos : Nat)
  /-- The message "numeric include multiple dots: at=%v". -/
  | numericIncludeMultipleDots (pos : Nat)
  /-- The message "numeric ended with dot: at=%v". -/
  | numericEndedWithDot (pos : Nat)
  /-- The message "unexpected symbol: at=%v". -/
  | unexpectedSymbol (pos : Nat)
  deriving DecidableEq

/-- The text of an error value. -/
def LexError.message : LexError → String
  | .unexpectedCharAt pos => "unexpected char: at=" ++ toString pos
  | .unexpectedCharWantGot want got =>
      "unexpected char: want=" ++ toString want.toNat ++ ", got=" ++ toString got.toNat
  | .stringWithoutClosingDq pos => "string without closing dq: at=" ++ toString pos
  | .numericStartedWithDot pos => "numeric started with dot: at=" ++ toString pos
  | .numericIncludeMultipleDots pos => "numeric include multiple dots: at=" ++ toString pos
  | .numericEndedWithDot pos => "numeric ended with dot: at=" ++ toString pos
  | .unexpectedSymbol pos => "unexpected symbol: at=" ++ toString pos

/-- The ways a call does not deliver a stream. -/
inductive Fault
  /-- The call returns `nil` and this error value. -/
  | error (e : LexError)
  /-- A read `l.chars[l.pos]` with `l.pos` outside the slice: a run-time panic. -/
  | indexOutOfRange
  /-- A read `num[len(num)-1]` on an empty `num`: a run-time panic. -/
  | numIndexOutOfRange
  /-- The step budget of a loop of the embedding is used up. -/
  | outOfFuel
  deriving DecidableEq

/-- The state of a lexer, `Lexer`: `toks` is the stream linked after `head`. -/
structure Lexer where
  chars : List Char
  pos : Nat
  toks : List Token
  deriving DecidableEq

/-- The double-quote rune. -/
def dq : Char := Char.ofNat 34

/-- The rune of the opening brace. -/
def lcb : Char := Char.ofNat 123

/-- The rune of the closing brace. -/
def rcb : Char := Char.ofNat 125

/-! ## Cursor primitives -/

/-- The test `len(l.chars) <= l.pos`. -/
def Lexer.isEof (l : Lexer) : Bool :=
  decide (l.chars.length ≤ l.pos)

/-- The read `l.chars[l.pos]`. -/
def Lexer.charAt (l : Lexer) : Except Fault Char :=
  match l.chars[l.pos]? with
  | some c => .ok c
  | none => .error .indexOutOfRange

/-- The method `charIs`: the runes of `r` are compared in turn with `l.chars[l.pos]`. -/
def Lexer.charIs (l : Lexer) : List Char → Except Fault Bool
  | [] => .ok false
  | r_ :: rs =>
    match l.charAt with
    | .error f => .error f
    | .ok c => if r_ = c then .ok true else l.charIs rs

/-- The method `charIsAlpha`. -/
def Lexer.charIsAlpha (l : Lexer) : Except Fault Bool :=
  match l.charAt with
  | .error f => .error f
  | .ok c =>
    if 'a' ≤ c ∧ c ≤ 'z' then .ok true
    else if 'A' ≤ c ∧ c ≤ 'Z' then .ok true
    else .ok false

/-- The method `consume`: the rune read, whether one was read, and the state after. -/
def Lexer.consume (l : Lexer) (r : List Char) : Except Fault (Char × Bool × Lexer) :=
  if r.length = 0 then
    match l.charAt with
    | .error f => .error f
    | .ok _r => .ok (_r, true, { l with pos := l.pos + 1 })
  else
    match l.charIs r with
    | .error f => .error f
    | .ok true =>
      match l.charAt with
      | .error f => .error f
      | .ok _r => .ok (_r, true, { l with pos := l.pos + 1 })
    | .ok false => .ok (Char.ofNat 0, false, l)

/-- The method `expect`. -/
def Lexer.expect (l : Lexer) (r : Char) : Except Fault Lexer :=
  match l.charIs [r] with
  | .error f => .error f
  | .ok true => .ok { l with pos := l.pos + 1 }
  | .ok false =>
    match l.charAt with
    | .error f => .error f
    | .ok got => .error (.error (.unexpectedCharWantGot r got))

/-- Linking a token after `l.curt` and moving `l.curt` to it. -/
def Lexer.link (l : Lexer) (t : Token) : Lexer :=
  { l with toks := l.toks ++ [t] }

/-! ## Handlers -/

/-- The implementations of the interface `TokenHandler`. -/
inductive TokenHandler
  | WhitespaceHandler
  | StringHandler
  | NumericHandler
  | SymbolHandler
  | IdentHandler
  deriving DecidableEq

/-- The method `getHandler`; `none` is the `nil` handler. -/
def Lexer.getHandler (l : Lexer) : Except Fault (Option TokenHandler) :=
  match l.charIs [' ', '\n', '\r', '\t'] with
  | .error f => .error f
  | .ok true => .ok (some .WhitespaceHandler)
  | .ok false =>
  match l.charIs [dq] with
  | .error f => .error f
  | .ok true => .ok (some .StringHandler)
  | .ok false =>
  match l.charIs ['0', '1', '2', '3', '4', '5', '6', '7', '8', '9', '-'] with
  | .error f => .error f
  | .ok true => .ok (some .NumericHandler)
  | .ok false =>
  match l.charIs [lcb, rcb, '='] with
  | .error f => .error f
  | .ok true => .ok (some .SymbolHandler)
  | .ok false =>
  match l.charIsAlpha with
  | .error f => .error f
  | .ok true => .ok (some .IdentHandler)
  | .ok false =>
  match l.charIs ['_'] with
  | .error f => .error f
  | .ok true => .ok (some .IdentHandler)
  | .ok false => .ok none

/-- The loop of `WhitespaceHandler.Handle`, with the runes gathered in `ws`. -/
def whitespaceLoop : Nat → Lexer → List Char → Except Fault (Lexer × List Char)
  | 0, _, _ => .error .outOfFuel
  | fuel + 1, l, ws =>
    if l.isEof then .ok (l, ws)
    else
      match l.consume [' ', '\n', '\r', '\t'] with
      | .error f => .error f
      | .ok (r, true, l1) => whitespaceLoop fuel l1 (ws ++ [r])
      | .ok (_, false, l1) => .ok (l1, ws)

/-- The method `WhitespaceHandler.Handle`. -/
def WhitespaceHandler.Handle (l : Lexer) (opts : LexOptions) : Except Fault Lexer :=
  let startedAt := l.pos
  match whitespaceLoop (l.chars.length + 1) l [] with
  | .error f => .error f
  | .ok (l1, ws) =>
    let pos : Position := ⟨startedAt, l1.pos⟩
    if opts.Clean then .ok l1 else .ok (l1.link ⟨pos, .Whitespace, ws⟩)

/-- The loop of `IdentHandler.Handle`, with the runes gathered in `ident`. -/
def identLoop : Nat → Lexer → List Char → Except Fault (Lexer × List Char)
  | 0, _, _ => .error .outOfFuel
  | fuel + 1, l, ident =>
    if l.isEof then .ok (l, ident)
    else
      match l.charIsAlpha with
      | .error f => .error f
      | .ok a =>
        match (if a then .ok true else l.charIs ['_']) with
        | .error f => .error f
        | .ok true =>
          match l.consume [] with
          | .error f => .error f
          | .ok (r, _, l1) => identLoop fuel l1 (ident ++ [r])
        | .ok false => .ok (l, ident)

/-- The method `IdentHandler.Handle`. -/
def IdentHandler.Handle (l : Lexer) (_opts : LexOptions) : Except Fault Lexer :=
  let startedAt := l.pos
  match identLoop (l.chars.length + 1) l [] with
  | .error f => .error f
  | .ok (l1, ident) =>
    let pos : Position := ⟨startedAt, l1.pos⟩
    .ok (l1.link ⟨pos, .Ident, ident⟩)

/-- The loop `strLoop` of `StringHandler.Handle`, with the runes gathered in `str`. -/
def strLoop : Nat → Lexer → List Char → Except Fault (Lexer × List Char)
  | 0, _, _ => .error .outOfFuel
  | fuel + 1, l, str =>
    if l.isEof then .ok (l, str)
    else
      match l.charIs [dq] with
      | .error f => .error f
      | .ok true => .ok (l, str)
      | .ok false =>
        match l.consume [] with
        | .error f => .error f
        | .ok (r, _, l1) => strLoop fuel l1 (str ++ [r])

/-- The method `StringHandler.Handle`. -/
def StringHandler.Handle (l : Lexer) (_opts : LexOptions) : Except Fault Lexer :=
  let startedAt := l.pos
  match l.expect dq with
  | .error f => .error f
  | .ok l1 =>
    match strLoop (l1.chars.length + 1) l1 [] with
    | .error f => .error f
    | .ok (l2, str) =>
      if l2.isEof then .error (.error (.stringWithoutClosingDq l2.pos))
      else
        match l2.expect dq with
        | .error f => .error f
        | .ok l3 =>
          let pos : Position := ⟨startedAt, l3.pos⟩
          .ok (l3.link ⟨pos, .String, str⟩)

/-- The loop `numLoop` of `NumericHandler.Handle`, with the state `num`, `dotFound`. -/
def numLoop : Nat → Lexer → List Char → Bool → Except Fault (Lexer × List Char × Bool)
  | 0, _, _, _ => .error .outOfFuel
  | fuel + 1, l, num, dotFound =>
    if l.isEof then .ok (l, num, dotFound)
    else
      match l.consume ['.'] with
      | .error f => .error f
      | .ok (r, true, l1) =>
        if dotFound = false then numLoop fuel l1 (num ++ [r]) true
        else .error (.error (.numericIncludeMultipleDots l1.pos))
      | .ok (_, false, l1) =>
        match l1.consume ['0', '1', '2', '3', '4', '5', '6', '7', '8', '9'] with
        | .error f => .error f
        | .ok (r, true, l2) => numLoop fuel l2 (num ++ [r]) dotFound
        | .ok (_, false, l2) => .ok (l2, num, dotFound)

/-- The method `NumericHandler.Handle`. -/
def NumericHandler.Handle (l : Lexer) (_opts : LexOptions) : Except Fault Lexer :=
  let startedAt := l.pos
  match l.consume ['-'] with
  | .error f => .error f
  | .ok (r, ok, l1) =>
    let num : List Char := if ok then [r] else []
    match l1.consume ['.'] with
    | .error f => .error f
    | .ok (_, true, l2) => .error (.error (.numericStartedWithDot l2.pos))
    | .ok (_, false, l2) =>
      match numLoop (l2.chars.length + 1) l2 num false with
      | .error f => .error f
      | .ok (l3, num, dotFound) =>
        match num.getLast? with
        | none => .error .numIndexOutOfRange
        | some last =>
          if last = '.' then .error (.error (.numericEndedWithDot l3.pos))
          else
            let pos : Position := ⟨startedAt, l3.pos⟩
            let kind : TokenKind := if dotFound then .Float else .Integer
            .ok (l3.link ⟨pos, kind, num⟩)

/-- The method `SymbolHandler.Handle`. -/
def SymbolHandler.Handle (l : Lexer) (_opts : LexOptions) : Except Fault Lexer :=
  let startedAt := l.pos
  let finish (res : Except Fault (Char × Bool × Lexer)) (kind : TokenKind) :
      Except Fault Lexer :=
    match res with
    | .error f => .error f
    | .ok (r, _, l1) =>
      let pos : Position := ⟨startedAt, l1.pos⟩
      .ok (l1.link ⟨pos, kind, [r]⟩)
  match l.charIs [lcb] with
  | .error f => .error f
  | .ok true => finish (l.consume [lcb]) .Lcb
  | .ok false =>
  match l.charIs [rcb] with
  | .error f => .error f
  | .ok true => finish (l.consume [rcb]) .Rcb
  | .ok false =>
  match l.charIs ['='] with
  | .error f => .error f
  | .ok true => finish (l.consume ['=']) .Assign
  | .ok false => .error (.error (.unexpectedSymbol l.pos))

/-- The dynamic call `handler.Handle(l, opts)`. -/
def TokenHandler.Handle : TokenHandler → Lexer → LexOptions → Except Fault Lexer
  | .WhitespaceHandler => Walnut.WhitespaceHandler.Handle
  | .StringHandler => Walnut.StringHandler.Handle
  | .NumericHandler => Walnut.NumericHandler.Handle
  | .SymbolHandler => Walnut.SymbolHandler.Handle
  | .IdentHandler => Walnut.IdentHandler.Handle

/-! ## The entry point -/

/-- The dispatch loop of `Lex`. -/
def lexLoop (opts : LexOptions) : Nat → Lexer → Except Fault Lexer
  | 0, _ => .error .outOfFuel
  | fuel + 1, l =>
    if l.isEof then .ok l
    else
      match l.getHandler with
      | .error f => .error f
      | .ok none => .error (.error (.unexpectedCharAt l.pos))
      | .ok (some handler) =>
        match handler.Handle l opts with
        | .error f => .error f
        | .ok l1 => lexLoop opts fuel l1

/-- The method `Lex`, on the runes of `script`: the stream `head.Next`, or the fault. -/
def Lex (opts : LexOptions) (script : List Char) : Except Fault (List Token) :=
  let l : Lexer := { chars := script, pos := 0, toks := [] }
  match lexLoop opts (script.length + 1) l with
  | .error f => .error f
  | .ok l1 =>
    let eof : Token := ⟨⟨l1.pos, l1.pos⟩, .Eof, []⟩
    .ok (l1.link eof).toks

deriving instance DecidableEq for Except

/-! ## Characterisation of the lexer on the unread runes

The definitions below are not part of the embedding: they describe, as functions
of the offset of the cursor and of the runes still unread, what the loops, the
handlers and `Lex` compute; the theorems that follow prove that they do. -/

/-- The runes that start and continue a run of whitespace. -/
def isWhitespace (c : Char) : Bool := decide (c ∈ [' ', '\n', '\r', '\t'])

/-- The ten runes accepted inside a numeric literal, the dot apart. -/
def isDigit (c : Char) : Bool :=
  decide (c ∈ ['0', '1', '2', '3', '4', '5', '6', '7', '8', '9'])

/-- The runes `charIsAlpha` accepts. -/
def isAlpha (c : Char) : Bool := decide (('a' ≤ c ∧ c ≤ 'z') ∨ ('A' ≤ c ∧ c ≤ 'Z'))

/-- The runes that start and continue an identifier. -/
def isIdentRune (c : Char) : Bool := isAlpha c || decide (c = '_')

/-- The state `l` with the cursor moved `k` runes on. -/
def Lexer.advance (l : Lexer) (k : Nat) : Lexer := { l with pos := l.pos + k }

/-- The run of `numLoop` on the unread runes `suf`, entered with `dotFound`: the
runes gathered and the final `dotFound`, or, when a second dot is met, the
number of runes read up to and including that dot. -/
def numRun : Bool → List Char → Except Nat (List Char × Bool)
  | dotFound, [] => .ok ([], dotFound)
  | dotFound, c :: cs =>
    if c = '.' then
      if dotFound then .error 1
      else
        match numRun true cs with
        | .error k => .error (k + 1)
        | .ok (run, df) => .ok (c :: run, df)
    else if isDigit c then
      match numRun dotFound cs with
      | .error k => .error (k + 1)
      | .ok (run, df) => .ok (c :: run, df)
    else .ok ([], dotFound)

/-! ## One round of the dispatch loop on the unread runes

Each handler is characterised by a function of the offset `pos` of the cursor
and of the unread runes `suf`: the number of runes it reads and the token it
links, or the fault it ends with. -/

/-- The round of `WhitespaceHandler`; under `Clean` the token is not linked. -/
def whitespaceStep (pos : Nat) (suf : List Char) : Nat × Token :=
  let run := suf.takeWhile isWhitespace
  (run.length, ⟨⟨pos, pos + run.length⟩, .Whitespace, run⟩)

/-- The round of `IdentHandler`. -/
def identStep (pos : Nat) (suf : List Char) : Nat × Token :=
  let run := suf.takeWhile isIdentRune
  (run.length, ⟨⟨pos, pos + run.length⟩, .Ident, run⟩)

/-- The round of `StringHandler`. -/
def stringStep (pos : Nat) (suf : List Char) : Except Fault (Nat × Token) :=
  match suf with
  | [] => .error .indexOutOfRange
  | c :: rest =>
    if c = dq then
      let body := rest.takeWhile (fun x => decide (x ≠ dq))
      match rest.dropWhile (fun x => decide (x ≠ dq)) with
      | [] => .error (.error (.stringWithoutClosingDq (pos + 1 + body.length)))
      | _ :: _ => .ok (body.length + 2, ⟨⟨pos, pos + (body.length + 2)⟩, .String, body⟩)
    else .error (.error (.unexpectedCharWantGot dq c))

/-- The round of `NumericHandler`. -/
def numericStep (pos : Nat) (suf : List Char) : Except Fault (Nat × Token) :=
  match suf with
  | [] => .error .indexOutOfRange
  | c :: rest =>
    let sign : List Char := if c = '-' then [c] else []
    let s1 : List Char := if c = '-' then rest else c :: rest
    match s1 with
    | [] => .error .indexOutOfRange
    | d :: _ =>
      if d = '.' then .error (.error (.numericStartedWithDot (pos + sign.length + 1)))
      else
        match numRun false s1 with
        | .error k => .error (.error (.numericIncludeMultipleDots (pos + sign.length + k)))
        | .ok (run, df) =>
          match (sign ++ run).getLast? with
          | none => .error .numIndexOutOfRange
          | some last =>
            if last = '.' then
              .error (.error (.numericEndedWithDot (pos + sign.length + run.length)))
            else
              .ok (sign.length + run.length,
                ⟨⟨pos, pos + (sign.length + run.length)⟩,
                  if df then .Float else .Integer, sign ++ run⟩)

/-- The round of `SymbolHandler`. -/
def symbolStep (pos : Nat) (suf : List Char) : Except Fault (Nat × Token) :=
  match suf with
  | [] => .error .indexOutOfRange
  | c :: _ =>
    if c = lcb then .ok (1, ⟨⟨pos, pos + 1⟩, .Lcb, [c]⟩)
    else if c = rcb then .ok (1, ⟨⟨pos, pos + 1⟩, .Rcb, [c]⟩)
    else if c = '=' then .ok (1, ⟨⟨pos, pos + 1⟩, .Assign, [c]⟩)
    else .error (.error (.unexpectedSymbol pos))

/-- The handler `getHandler` selects when the rune at the cursor is `c`. -/
def handlerOf (c : Char) : Option TokenHandler :=
  if c ∈ [' ', '\n', '\r', '\t'] then some .WhitespaceHandler
  else if c ∈ [dq] then some .StringHandler
  else if c ∈ ['0', '1', '2', '3', '4', '5', '6', '7', '8', '9', '-'] then some .NumericHandler
  else if c ∈ [lcb, rcb, '='] then some .SymbolHandler
  else if isAlpha c then some .IdentHandler
  else if c ∈ ['_'] then some .IdentHandler
  else none

/-- The round of the handler `h` at offset `pos` on the unread runes `suf`. -/
def handlerStep : TokenHandler → Nat → List Char → Except Fault (Nat × Token)
  | .WhitespaceHandler, pos, suf => .ok (whitespaceStep pos suf)
  | .StringHandler, pos, suf => stringStep pos suf
  | .NumericHandler, pos, suf => numericStep pos suf
  | .SymbolHandler, pos, suf => symbolStep pos suf
  | .IdentHandler, pos, suf => .ok (identStep pos suf)

/-- One round of the loop of `Lex` at offset `pos` on the unread runes `suf`: the
number of runes read and the token of the round. -/
def scanStep (pos : Nat) (suf : List Char) : Except Fault (Nat × Token) :=
  match suf with
  | [] => .error .indexOutOfRange
  | c :: _ =>
    match handlerOf c with
    | none => .error (.error (.unexpectedCharAt pos))
    | some h => handlerStep h pos suf

/-- Whether a token of a round is linked into the stream: all but the
whitespace tokens under `Clean`. -/
def kept (opts : LexOptions) (t : Token) : Bool :=
  !(opts.Clean && decide (t.Kind = .Whitespace))

/-- The stream of `Lex` from offset `pos` on, on the unread runes `suf`, with
every whitespace token in it. -/
def scanFrom : Nat → Nat → List Char → Except Fault (List Token)
  | 0, _, _ => .error .outOfFuel
  | _ + 1, pos, [] => .ok [⟨⟨pos, pos⟩, .Eof, []⟩]
  | fuel + 1, pos, c :: rest =>
    match scanStep pos (c :: rest) with
    | .error f => .error f
    | .ok (k, t) =>
      match scanFrom fuel (pos + k) ((c :: rest).drop k) with
      | .error f => .error f
      | .ok ts => .ok (t :: ts)

/-- The token that ends the stream when the cursor is at `pos`. -/
def eofToken (pos : Nat) : Token := ⟨⟨pos, pos⟩, .Eof, []⟩

/-- The runes of the input a token stands for: its `Raw`, between the two
delimiting double quotes when the token is a `String`. -/
def Token.source (t : Token) : List Char :=
  if t.Kind = .String then dq :: (t.Raw ++ [dq]) else t.Raw

/-- The tokens of the successful rounds from offset `pos` on the unread runes
`suf`, up to the end of the input. -/
inductive Rounds : Nat → List Char → List Token → Prop
  | done (pos : Nat) : Rounds pos [] []
  | round {pos : Nat} {suf : List Char} {k : Nat} {t : Token} {ts : List Token} :
      scanStep pos suf = .ok (k, t) → Rounds (pos + k) (suf.drop k) ts →
      Rounds pos suf (t :: ts)

/-! ## A sample script and the tokens of a script of symbols -/

/-- A script with a token of each of four kinds: `k = "v"`. -/
def sampleScript : List Char := ['k', ' ', '=', ' ', dq, 'v', dq]

/-- The stream of `sampleScript` under `Clean = false`. -/
def sampleStream : List Token :=
  [⟨⟨0, 1⟩, .Ident, ['k']⟩, ⟨⟨1, 2⟩, .Whitespace, [' ']⟩, ⟨⟨2, 3⟩, .Assign, ['=']⟩,
    ⟨⟨3, 4⟩, .Whitespace, [' ']⟩, ⟨⟨4, 7⟩, .String, ['v']⟩, ⟨⟨7, 7⟩, .Eof, []⟩]

/-- The stream of `sampleScript` under `Clean = true`. -/
def sampleCleanStream : List Token :=
  [⟨⟨0, 1⟩, .Ident, ['k']⟩, ⟨⟨2, 3⟩, .Assign, ['=']⟩, ⟨⟨4, 7⟩, .String, ['v']⟩,
    ⟨⟨7, 7⟩, .Eof, []⟩]

/-- The kind `SymbolHandler` gives to a symbol rune. -/
def symbolKind (c : Char) : TokenKind :=
  if c = lcb then .Lcb else if c = rcb then .Rcb else .Assign

/-- The tokens of a script of symbol runes read from offset `pos` on. -/
def symbolTokens : Nat → List Char → List Token
  | _, [] => []
  | pos, c :: cs => ⟨⟨pos, pos + 1⟩, symbolKind c, [c]⟩ :: symbolTokens (pos + 1) cs

/-- The error values that are not raised by a defensive branch: all but the one
of `SymbolHandler` on a rune that is no symbol and the one of `expect`. -/
def LexError.reachable : LexError → Bool
  | .unexpectedCharAt _ => true
  | .stringWithoutClosingDq _ => true
  | .numericStartedWithDot _ => true
  | .numericIncludeMultipleDots _ => true
  | .numericEndedWithDot _ => true
  | .unexpectedSymbol _ => false
  | .unexpectedCharWantGot _ _ => false

/-! ## The cursor primitives on the unread runes -/

theorem drop_head {l : Lexer} {c : Char} {rest : List Char}
    (h : l.chars.drop l.pos = c :: rest) : l.chars[l.pos]? = some c := by
  rw [← List.head?_drop, h]; rfl

theorem drop_tail {l : Lexer} {c : Char} {rest : List Char}
    (h : l.chars.drop l.pos = c :: rest) : l.chars.drop (l.pos + 1) = rest := by
  rw [← List.tail_drop, h]; rfl

theorem isEof_of_nil {l : Lexer} (h : l.chars.drop l.pos = []) : l.isEof = true := by
  simpa [Lexer.isEof] using h

theorem isEof_of_cons {l : Lexer} {c : Char} {rest : List Char}
    (h : l.chars.drop l.pos = c :: rest) : l.isEof = false := by
  have : ¬ l.chars.length ≤ l.pos := by
    intro hle
    rw [List.drop_eq_nil_of_le hle] at h
    exact List.noConfusion h
  simp [Lexer.isEof, this]

theorem charAt_of_nil {l : Lexer} (h : l.chars.drop l.pos = []) :
    l.charAt = .error .indexOutOfRange := by
  have : l.chars[l.pos]? = none := by
    rw [← List.head?_drop, h]; rfl
  simp [Lexer.charAt, this]

theorem charAt_of_cons {l : Lexer} {c : Char} {rest : List Char}
    (h : l.chars.drop l.pos = c :: rest) : l.charAt = .ok c := by
  simp [Lexer.charAt, drop_head h]

theorem charIs_of_charAt {l : Lexer} {c : Char} (h : l.charAt = .ok c) (rs : List Char) :
    l.charIs rs = .ok (decide (c ∈ rs)) := by
  induction rs with
  | nil => simp [Lexer.charIs]
  | cons r rs ih =>
    by_cases hr : r = c
    · simp [Lexer.charIs, h, hr]
    · have hr2 : ¬ c = r := fun e => hr e.symm
      simp [Lexer.charIs, h, hr, hr2, ih]

theorem charIs_of_nil {l : Lexer} (h : l.chars.drop l.pos = []) (r : Char) (rs : List Char) :
    l.charIs (r :: rs) = .error .indexOutOfRange := by
  simp [Lexer.charIs, charAt_of_nil h]

theorem charIsAlpha_of_charAt {l : Lexer} {c : Char} (h : l.charAt = .ok c) :
    l.charIsAlpha = .ok (isAlpha c) := by
  unfold Lexer.charIsAlpha isAlpha
  rw [h]
  by_cases h1 : 'a' ≤ c ∧ c ≤ 'z'
  · simp [h1]
  · by_cases h2 : 'A' ≤ c ∧ c ≤ 'Z'
    · simp [h1, h2]
    · simp [h1, h2]

theorem consume_any {l : Lexer} {c : Char} (h : l.charAt = .ok c) :
    l.consume [] = .ok (c, true, l.advance 1) := by
  simp [Lexer.consume, h, Lexer.advance]

theorem consume_hit {l : Lexer} {c : Char} (h : l.charAt = .ok c) {r : Char} {rs : List Char}
    (hc : c ∈ r :: rs) : l.consume (r :: rs) = .ok (c, true, l.advance 1) := by
  simp only [Lexer.consume, charIs_of_charAt h, h, Lexer.advance]
  simp [hc]

theorem consume_miss {l : Lexer} {c : Char} (h : l.charAt = .ok c) {r : Char} {rs : List Char}
    (hc : c ∉ r :: rs) : l.consume (r :: rs) = .ok (Char.ofNat 0, false, l) := by
  simp only [Lexer.consume, charIs_of_charAt h, h]
  simp [hc]

theorem consume_of_nil {l : Lexer} (h : l.chars.drop l.pos = []) (r : Char) (rs : List Char) :
    l.consume (r :: rs) = .error .indexOutOfRange := by
  simp [Lexer.consume, charIs_of_nil h]

theorem expect_hit {l : Lexer} {c : Char} (h : l.charAt = .ok c) :
    l.expect c = .ok (l.advance 1) := by
  simp [Lexer.expect, charIs_of_charAt h, Lexer.advance]

theorem expect_miss {l : Lexer} {c r : Char} (h : l.charAt = .ok c) (hne : c ≠ r) :
    l.expect r = .error (.error (.unexpectedCharWantGot r c)) := by
  simp [Lexer.expect, charIs_of_charAt h, hne, h]

theorem expect_of_nil {l : Lexer} (h : l.chars.drop l.pos = []) (r : Char) :
    l.expect r = .error .indexOutOfRange := by
  simp [Lexer.expect, charIs_of_nil h]

@[simp] theorem advance_chars (l : Lexer) (k : Nat) : (l.advance k).chars = l.chars := rfl

@[simp] theorem advance_pos (l : Lexer) (k : Nat) : (l.advance k).pos = l.pos + k := rfl

@[simp] theorem advance_toks (l : Lexer) (k : Nat) : (l.advance k).toks = l.toks := rfl

@[simp] theorem advance_zero (l : Lexer) : l.advance 0 = l := rfl

@[simp] theorem advance_advance (l : Lexer) (j k : Nat) :
    (l.advance j).advance k = l.advance (j + k) := by
  simp [Lexer.advance, Nat.add_assoc]

@[simp] theorem link_chars (l : Lexer) (t : Token) : (l.link t).chars = l.chars := rfl

@[simp] theorem link_pos (l : Lexer) (t : Token) : (l.link t).pos = l.pos := rfl

@[simp] theorem link_toks (l : Lexer) (t : Token) : (l.link t).toks = l.toks ++ [t] := rfl

theorem advance_drop (l : Lexer) (k : Nat) :
    (l.advance k).chars.drop (l.advance k).pos = (l.chars.drop l.pos).drop k := by
  simp [List.drop_drop, Nat.add_comm]

/-! ## The loops of the handlers on the unread runes -/

theorem whitespaceLoop_eq (fuel : Nat) : ∀ (l : Lexer) (ws suf : List Char),
    l.chars.drop l.pos = suf → suf.length < fuel →
    whitespaceLoop fuel l ws =
      .ok (l.advance (suf.takeWhile isWhitespace).length, ws ++ suf.takeWhile isWhitespace) := by
  induction fuel with
  | zero => intro l ws suf _ h; omega
  | succ fuel ih =>
    intro l ws suf hs hf
    cases suf with
    | nil => simp [whitespaceLoop, isEof_of_nil hs]
    | cons c rest =>
      have hc := charAt_of_cons hs
      by_cases hw : c ∈ [' ', '\n', '\r', '\t']
      · have hrec := ih (l.advance 1) (ws ++ [c]) rest
          (by rw [advance_drop, hs]; rfl) (by simpa using hf)
        have hp : isWhitespace c = true := by simp [isWhitespace, hw]
        simp only [whitespaceLoop, isEof_of_cons hs, consume_hit hc hw, hrec]
        simp [List.takeWhile_cons, hp, Nat.add_comm]
      · have hp : isWhitespace c = false := by simp [isWhitespace, hw]
        simp only [whitespaceLoop, isEof_of_cons hs, consume_miss hc hw]
        simp [List.takeWhile_cons, hp]

theorem identLoop_eq (fuel : Nat) : ∀ (l : Lexer) (ident suf : List Char),
    l.chars.drop l.pos = suf → suf.length < fuel →
    identLoop fuel l ident =
      .ok (l.advance (suf.takeWhile isIdentRune).length, ident ++ suf.takeWhile isIdentRune) := by
  induction fuel with
  | zero => intro l ws suf _ h; omega
  | succ fuel ih =>
    intro l ident suf hs hf
    cases suf with
    | nil => simp [identLoop, isEof_of_nil hs]
    | cons c rest =>
      have hc := charAt_of_cons hs
      have hrec := ih (l.advance 1) (ident ++ [c]) rest
          (by rw [advance_drop, hs]; rfl) (by simpa using hf)
      simp only [identLoop, isEof_of_cons hs, charIsAlpha_of_charAt hc, charIs_of_charAt hc,
        consume_any hc]
      by_cases ha : isAlpha c = true
      · have hp : isIdentRune c = true := by simp [isIdentRune, ha]
        simp [ha, hrec, List.takeWhile_cons, hp, Nat.add_comm]
      · have ha2 : isAlpha c = false := by simpa using ha
        by_cases hu : c = '_'
        · subst hu
          have hp : isIdentRune '_' = true := by simp [isIdentRune]
          simp [ha2, hrec, List.takeWhile_cons, hp, Nat.add_comm]
        · have hp : isIdentRune c = false := by simp [isIdentRune, ha2, hu]
          simp [ha2, hu, List.takeWhile_cons, hp]

theorem strLoop_eq (fuel : Nat) : ∀ (l : Lexer) (str suf : List Char),
    l.chars.drop l.pos = suf → suf.length < fuel →
    strLoop fuel l str =
      .ok (l.advance (suf.takeWhile (fun c => decide (c ≠ dq))).length,
        str ++ suf.takeWhile (fun c => decide (c ≠ dq))) := by
  induction fuel with
  | zero => intro l ws suf _ h; omega
  | succ fuel ih =>
    intro l str suf hs hf
    cases suf with
    | nil => simp [strLoop, isEof_of_nil hs]
    | cons c rest =>
      have hc := charAt_of_cons hs
      have hrec := ih (l.advance 1) (str ++ [c]) rest
          (by rw [advance_drop, hs]; rfl) (by simpa using hf)
      simp only [strLoop, isEof_of_cons hs, charIs_of_charAt hc, consume_any hc]
      by_cases hq : c = dq
      · simp [hq, List.takeWhile_cons]
      · simp [hq, hrec, List.takeWhile_cons, Nat.add_comm]

theorem numLoop_eq (fuel : Nat) : ∀ (l : Lexer) (num suf : List Char) (dotFound : Bool),
    l.chars.drop l.pos = suf → suf.length < fuel →
    numLoop fuel l num dotFound =
      match numRun dotFound suf with
      | .error k => .error (.error (.numericIncludeMultipleDots (l.pos + k)))
      | .ok (run, df) => .ok (l.advance run.length, num ++ run, df) := by
  induction fuel with
  | zero => intro l num suf _ _ h; omega
  | succ fuel ih =>
    intro l num suf dotFound hs hf
    cases suf with
    | nil => simp [numLoop, isEof_of_nil hs, numRun]
    | cons c rest =>
      have hc := charAt_of_cons hs
      have hd : (l.advance 1).chars.drop (l.advance 1).pos = rest := by
        rw [advance_drop, hs]; rfl
      have hl : rest.length < fuel := by simpa using hf
      by_cases hdot : c = '.'
      · subst hdot
        have hit : ('.' : Char) ∈ ['.'] := by simp
        simp only [numLoop, isEof_of_cons hs, consume_hit hc hit]
        cases dotFound with
        | true => simp [numRun]
        | false =>
          rw [if_pos rfl, ih (l.advance 1) (num ++ ['.']) rest true hd hl]
          simp only [numRun, if_true]
          cases numRun true rest with
          | error k => simp; omega
          | ok p => simp [Nat.add_comm]
      · have miss : c ∉ ['.'] := by simpa using hdot
        simp only [numLoop, isEof_of_cons hs, consume_miss hc miss]
        by_cases hdig : c ∈ ['0', '1', '2', '3', '4', '5', '6', '7', '8', '9']
        · have hp : isDigit c = true := by simp [isDigit, hdig]
          rw [consume_hit hc hdig]
          simp only []
          rw [ih (l.advance 1) (num ++ [c]) rest dotFound hd hl]
          simp only [numRun, hdot, if_false, hp, if_true]
          cases numRun dotFound rest with
          | error k => simp; omega
          | ok p => simp [Nat.add_comm]
        · have hp : isDigit c = false := by simp [isDigit, hdig]
          rw [consume_miss hc hdig]
          simp [numRun, hdot, hp]

theorem drop_length_takeWhile (p : Char → Bool) (xs : List Char) :
    xs.drop (xs.takeWhile p).length = xs.dropWhile p := by
  induction xs with
  | nil => rfl
  | cons x xs ih =>
    by_cases h : p x = true
    · simp [List.takeWhile_cons, List.dropWhile_cons, h, ih]
    · simp [List.takeWhile_cons, List.dropWhile_cons, h]

theorem dropWhile_head_false (p : Char → Bool) (xs : List Char) {c : Char} {r : List Char}
    (h : xs.dropWhile p = c :: r) : p c = false := by
  induction xs with
  | nil => simp at h
  | cons x xs ih =>
    by_cases hx : p x = true
    · simp only [List.dropWhile_cons, hx, if_true] at h
      exact ih h
    · simp only [List.dropWhile_cons, hx] at h
      simp only [Bool.false_eq_true, if_false, List.cons.injEq] at h
      rw [← h.1]
      simpa using hx

theorem WhitespaceHandler_Handle_eq (l : Lexer) (opts : LexOptions) :
    WhitespaceHandler.Handle l opts =
      .ok (if opts.Clean then l.advance (whitespaceStep l.pos (l.chars.drop l.pos)).1
        else (l.advance (whitespaceStep l.pos (l.chars.drop l.pos)).1).link
          (whitespaceStep l.pos (l.chars.drop l.pos)).2) := by
  have h := whitespaceLoop_eq (l.chars.length + 1) l [] (l.chars.drop l.pos) rfl
    (by simp; omega)
  simp only [WhitespaceHandler.Handle, h, whitespaceStep]
  cases opts.Clean <;> simp

theorem IdentHandler_Handle_eq (l : Lexer) (opts : LexOptions) :
    IdentHandler.Handle l opts =
      .ok ((l.advance (identStep l.pos (l.chars.drop l.pos)).1).link
          (identStep l.pos (l.chars.drop l.pos)).2) := by
  have h := identLoop_eq (l.chars.length + 1) l [] (l.chars.drop l.pos) rfl
    (by simp; omega)
  simp [IdentHandler.Handle, h, identStep]

theorem StringHandler_Handle_eq (l : Lexer) (opts : LexOptions) :
    StringHandler.Handle l opts =
      match stringStep l.pos (l.chars.drop l.pos) with
      | .error f => .error f
      | .ok (k, t) => .ok ((l.advance k).link t) := by
  cases hs : l.chars.drop l.pos with
  | nil => simp [StringHandler.Handle, expect_of_nil hs, stringStep]
  | cons c rest =>
    have hc := charAt_of_cons hs
    by_cases hq : c = dq
    · subst hq
      have hd : (l.advance 1).chars.drop (l.advance 1).pos = rest := by
        rw [advance_drop, hs]; rfl
      have hloop := strLoop_eq ((l.advance 1).chars.length + 1) (l.advance 1) [] rest hd
        (by rw [← hd]; simp; omega)
      simp only [StringHandler.Handle, expect_hit hc, hloop, stringStep, if_true, List.nil_append]
      have hd2 : ((l.advance 1).advance
            (rest.takeWhile (fun x => decide (x ≠ dq))).length).chars.drop
          ((l.advance 1).advance (rest.takeWhile (fun x => decide (x ≠ dq))).length).pos =
          rest.dropWhile (fun x => decide (x ≠ dq)) := by
        rw [advance_drop, hd, drop_length_takeWhile]
      cases hdw : rest.dropWhile (fun x => decide (x ≠ dq)) with
      | nil =>
        rw [hdw] at hd2
        rw [isEof_of_nil hd2]
        simp [Nat.add_assoc]
      | cons c2 r2 =>
        rw [hdw] at hd2
        have hc2 : c2 = dq := by simpa using dropWhile_head_false _ rest hdw
        subst hc2
        rw [isEof_of_cons hd2, expect_hit (charAt_of_cons hd2)]
        have e : ∀ n : Nat, 1 + n + 1 = n + 2 := fun n => by omega
        simp [e]
    · simp [StringHandler.Handle, expect_miss hc hq, stringStep, hq]

theorem NumericHandler_Handle_eq (l : Lexer) (opts : LexOptions) :
    NumericHandler.Handle l opts =
      match numericStep l.pos (l.chars.drop l.pos) with
      | .error f => .error f
      | .ok (k, t) => .ok ((l.advance k).link t) := by
  cases hs : l.chars.drop l.pos with
  | nil => simp [NumericHandler.Handle, consume_of_nil hs, numericStep]
  | cons c rest =>
    have hc := charAt_of_cons hs
    -- the state and the runes gathered once the sign has been looked at
    obtain ⟨l1, sign, s1, h1, hsign, hs1, hd1, hp1⟩ :
        ∃ (l1 : Lexer) (sign s1 : List Char),
          l.consume ['-'] = .ok (if c = '-' then c else Char.ofNat 0, decide (c = '-'), l1) ∧
          sign = (if c = '-' then [c] else []) ∧
          s1 = (if c = '-' then rest else c :: rest) ∧
          l1.chars.drop l1.pos = s1 ∧ l1 = l.advance sign.length := by
      by_cases hm : c = '-'
      · refine ⟨l.advance 1, [c], rest, ?_, by simp [hm], by simp [hm], ?_, rfl⟩
        · rw [consume_hit hc (by simp [hm])]; simp [hm]
        · rw [advance_drop, hs]; rfl
      · refine ⟨l, [], c :: rest, ?_, by simp [hm], by simp [hm], hs, rfl⟩
        rw [consume_miss hc (by simpa using hm)]; simp [hm]
    have hnum : (if decide (c = '-') = true then [if c = '-' then c else Char.ofNat 0] else [])
        = sign := by
      by_cases hm : c = '-' <;> simp [hm, hsign]
    simp only [NumericHandler.Handle, h1, hnum, numericStep, ← hsign, ← hs1]
    cases hs1c : s1 with
    | nil =>
      rw [hs1c] at hd1
      simp [consume_of_nil hd1]
    | cons d rest1 =>
      rw [hs1c] at hd1
      have hc1 := charAt_of_cons hd1
      by_cases hdot : d = '.'
      · subst hdot
        rw [consume_hit hc1 (by simp)]
        simp [hp1, Nat.add_assoc]
      · rw [consume_miss hc1 (by simpa using hdot)]
        have hloop := numLoop_eq (l1.chars.length + 1) l1 sign (d :: rest1) false hd1
          (by rw [← hd1]; simp; omega)
        simp only [hloop, hdot, if_false]
        cases numRun false (d :: rest1) with
        | error k => simp [hp1, Nat.add_assoc]
        | ok p =>
          obtain ⟨run, df⟩ := p
          simp only []
          cases (sign ++ run).getLast? with
          | none => rfl
          | some last =>
            by_cases hl : last = '.'
            · simp [hl, hp1, Nat.add_assoc]
            · simp [hl, hp1, Nat.add_assoc]

theorem SymbolHandler_Handle_eq (l : Lexer) (opts : LexOptions) :
    SymbolHandler.Handle l opts =
      match symbolStep l.pos (l.chars.drop l.pos) with
      | .error f => .error f
      | .ok (k, t) => .ok ((l.advance k).link t) := by
  cases hs : l.chars.drop l.pos with
  | nil => simp [SymbolHandler.Handle, charIs_of_nil hs, symbolStep]
  | cons c rest =>
    have hc := charAt_of_cons hs
    simp only [SymbolHandler.Handle, charIs_of_charAt hc, symbolStep]
    by_cases h1 : c = lcb
    · simp [h1, consume_hit (h1 ▸ hc) (List.mem_singleton.mpr rfl)]
    · by_cases h2 : c = rcb
      · have : ¬ rcb = lcb := by decide
        simp [h2, this, consume_hit (h2 ▸ hc) (List.mem_singleton.mpr rfl)]
      · by_cases h3 : c = '='
        · have e1 : ¬ '=' = lcb := by decide
          have e2 : ¬ '=' = rcb := by decide
          simp [h3, e1, e2, consume_hit (h3 ▸ hc) (List.mem_singleton.mpr rfl)]
        · simp [h1, h2, h3]

/-! ## One round of the dispatch loop on the unread runes -/

theorem getHandler_of_charAt {l : Lexer} {c : Char} (h : l.charAt = .ok c) :
    l.getHandler = .ok (handlerOf c) := by
  simp only [Lexer.getHandler, charIs_of_charAt h, charIsAlpha_of_charAt h, handlerOf]
  by_cases h1 : c ∈ [' ', '\n', '\r', '\t']
  · simp only [h1, decide_True, if_true]
  · simp only [h1, decide_False, if_false]
    by_cases h2 : c ∈ [dq]
    · simp only [h2, decide_True, if_true]
    · simp only [h2, decide_False, if_false]
      by_cases h3 : c ∈ ['0', '1', '2', '3', '4', '5', '6', '7', '8', '9', '-']
      · simp only [h3, decide_True, if_true]
      · simp only [h3, decide_False, if_false]
        by_cases h4 : c ∈ [lcb, rcb, '=']
        · simp only [h4, decide_True, if_true]
        · simp only [h4, decide_False, if_false]
          cases isAlpha c with
          | true => simp only [if_true]
          | false =>
            by_cases h5 : c ∈ ['_']
            · simp only [h5, decide_True, if_true, Bool.false_eq_true, if_false]
            · simp only [h5, decide_False, if_false, Bool.false_eq_true]

theorem numericStep_ok {pos : Nat} {suf : List Char} {k : Nat} {t : Token}
    (h : numericStep pos suf = .ok (k, t)) :
    ∃ (c : Char) (rest run : List Char) (df : Bool),
      suf = c :: rest ∧
      numRun false (if c = '-' then rest else c :: rest) = .ok (run, df) ∧
      k = (if c = '-' then [c] else []).length + run.length ∧
      t = ⟨⟨pos, pos + k⟩, if df then .Float else .Integer,
        (if c = '-' then [c] else []) ++ run⟩ ∧
      ((if c = '-' then [c] else []) ++ run).getLast? ≠ some '.' ∧
      ((if c = '-' then [c] else []) ++ run) ≠ [] := by
  cases suf with
  | nil => simp [numericStep] at h
  | cons c rest =>
    simp only [numericStep] at h
    generalize hs1 : (if c = '-' then rest else c :: rest) = s1 at h
    generalize hsg : (if c = '-' then [c] else []) = sign at h
    cases s1 with
    | nil => simp at h
    | cons d r1 =>
      simp only [] at h
      by_cases hd : d = '.'
      · simp [hd] at h
      · simp only [hd, if_false] at h
        cases hr : numRun false (d :: r1) with
        | error k => simp [hr] at h
        | ok p =>
          obtain ⟨run, df⟩ := p
          simp only [hr] at h
          cases hl : (sign ++ run).getLast? with
          | none => simp [hl] at h
          | some last =>
            simp only [hl] at h
            by_cases hlast : last = '.'
            · simp [hlast] at h
            · simp only [hlast, if_false, Except.ok.injEq, Prod.mk.injEq] at h
              refine ⟨c, rest, run, df, rfl, ?_, ?_, ?_, ?_, ?_⟩
              · rw [hs1]; exact hr
              · rw [hsg]; exact h.1.symm
              · rw [hsg, ← h.1]; exact h.2.symm
              · rw [hsg, hl]; simpa using hlast
              · rw [hsg]; intro e; rw [e] at hl; simp at hl

theorem numericStep_kind {pos : Nat} {suf : List Char} {k : Nat} {t : Token}
    (h : numericStep pos suf = .ok (k, t)) : t.Kind = .Integer ∨ t.Kind = .Float := by
  obtain ⟨c, rest, run, df, -, -, -, ht, -, -⟩ := numericStep_ok h
  rw [ht]
  cases df <;> simp

theorem handlerStep_kept {h : TokenHandler} {pos : Nat} {suf : List Char} {k : Nat} {t : Token}
    (opts : LexOptions) (hs : handlerStep h pos suf = .ok (k, t)) :
    kept opts t = !(opts.Clean && decide (h = .WhitespaceHandler)) := by
  cases h with
  | WhitespaceHandler =>
    simp only [handlerStep, whitespaceStep, Except.ok.injEq, Prod.mk.injEq] at hs
    simp [kept, ← hs.2]
  | IdentHandler =>
    simp only [handlerStep, identStep, Except.ok.injEq, Prod.mk.injEq] at hs
    simp [kept, ← hs.2]
  | NumericHandler =>
    rcases numericStep_kind hs with hk | hk <;> simp [kept, hk]
  | StringHandler =>
    simp only [handlerStep, stringStep] at hs
    split at hs
    · exact absurd hs (by simp)
    · split at hs
      · split at hs
        · exact absurd hs (by simp)
        · simp only [Except.ok.injEq, Prod.mk.injEq] at hs
          simp [kept, ← hs.2]
      · exact absurd hs (by simp)
  | SymbolHandler =>
    simp only [handlerStep, symbolStep] at hs
    split at hs
    · exact absurd hs (by simp)
    · split at hs
      · simp only [Except.ok.injEq, Prod.mk.injEq] at hs
        simp [kept, ← hs.2]
      · split at hs
        · simp only [Except.ok.injEq, Prod.mk.injEq] at hs
          simp [kept, ← hs.2]
        · split at hs
          · simp only [Except.ok.injEq, Prod.mk.injEq] at hs
            simp [kept, ← hs.2]
          · exact absurd hs (by simp)

theorem Handle_eq (h : TokenHandler) (l : Lexer) (opts : LexOptions) :
    h.Handle l opts =
      match handlerStep h l.pos (l.chars.drop l.pos) with
      | .error f => .error f
      | .ok (k, t) => .ok (if kept opts t then (l.advance k).link t else l.advance k) := by
  cases hs : handlerStep h l.pos (l.chars.drop l.pos) with
  | error f =>
    cases h with
    | WhitespaceHandler => simp [handlerStep] at hs
    | IdentHandler => simp [handlerStep] at hs
    | StringHandler =>
      simp only [handlerStep] at hs
      simp [TokenHandler.Handle, StringHandler_Handle_eq, hs]
    | NumericHandler =>
      simp only [handlerStep] at hs
      simp [TokenHandler.Handle, NumericHandler_Handle_eq, hs]
    | SymbolHandler =>
      simp only [handlerStep] at hs
      simp [TokenHandler.Handle, SymbolHandler_Handle_eq, hs]
  | ok p =>
    obtain ⟨k, t⟩ := p
    have hk := handlerStep_kept opts hs
    cases h with
    | WhitespaceHandler =>
      simp only [handlerStep, Except.ok.injEq] at hs
      simp only [TokenHandler.Handle, WhitespaceHandler_Handle_eq, hs, hk]
      cases opts.Clean <;> simp
    | IdentHandler =>
      simp only [handlerStep, Except.ok.injEq] at hs
      simp [TokenHandler.Handle, IdentHandler_Handle_eq, hs, hk]
    | StringHandler =>
      simp only [handlerStep] at hs
      simp [TokenHandler.Handle, StringHandler_Handle_eq, hs, hk]
    | NumericHandler =>
      simp only [handlerStep] at hs
      simp [TokenHandler.Handle, NumericHandler_Handle_eq, hs, hk]
    | SymbolHandler =>
      simp only [handlerStep] at hs
      simp [TokenHandler.Handle, SymbolHandler_Handle_eq, hs, hk]

theorem lexLoop_eq (opts : LexOptions) (fuel : Nat) : ∀ l : Lexer,
    (match lexLoop opts fuel l with
      | .error f => .error f
      | .ok l1 => .ok (l1.link (eofToken l1.pos)).toks) =
    (match scanFrom fuel l.pos (l.chars.drop l.pos) with
      | .error f => (.error f : Except Fault (List Token))
      | .ok ts => .ok (l.toks ++ ts.filter (kept opts))) := by
  induction fuel with
  | zero => intro l; simp [lexLoop, scanFrom]
  | succ fuel ih =>
    intro l
    cases hs : l.chars.drop l.pos with
    | nil =>
      simp [lexLoop, isEof_of_nil hs, scanFrom, eofToken, kept]
    | cons c rest =>
      have hc := charAt_of_cons hs
      simp only [lexLoop, isEof_of_cons hs, getHandler_of_charAt hc, scanFrom, scanStep]
      cases handlerOf c with
      | none => simp
      | some h =>
        simp only [Bool.false_eq_true, if_false, Handle_eq, hs]
        cases handlerStep h l.pos (c :: rest) with
        | error f => simp
        | ok p =>
          obtain ⟨k, t⟩ := p
          simp only []
          by_cases hk : kept opts t = true
          · have := ih ((l.advance k).link t)
            simp only [link_pos, link_chars, advance_pos, advance_chars, link_toks,
              advance_toks] at this
            rw [← List.drop_drop, hs] at this
            simp only [hk, if_true]
            cases hsc : scanFrom fuel (l.pos + k) (List.drop k (c :: rest)) with
            | error f => rw [hsc] at this; simpa using this
            | ok ts => rw [hsc] at this; simpa [List.filter_cons, hk] using this
          · have := ih (l.advance k)
            simp only [advance_pos, advance_chars, advance_toks] at this
            rw [← List.drop_drop, hs] at this
            simp only [hk, if_false]
            cases hsc : scanFrom fuel (l.pos + k) (List.drop k (c :: rest)) with
            | error f => rw [hsc] at this; simpa using this
            | ok ts => rw [hsc] at this; simpa [List.filter_cons, hk] using this

theorem Lex_eq (opts : LexOptions) (script : List Char) :
    Lex opts script =
      match scanFrom (script.length + 1) 0 script with
      | .error f => .error f
      | .ok ts => .ok (ts.filter (kept opts)) := by
  have h := lexLoop_eq opts (script.length + 1) ⟨script, 0, []⟩
  simp only [List.drop_zero, List.nil_append] at h
  rw [← h]
  rfl

/-! ## What a round reads and links -/

theorem take_length_takeWhile (p : Char → Bool) (xs : List Char) :
    xs.take (xs.takeWhile p).length = xs.takeWhile p := by
  have h := List.take_left (xs.takeWhile p) (xs.dropWhile p)
  rwa [List.takeWhile_append_dropWhile] at h

theorem length_takeWhile_le (p : Char → Bool) (xs : List Char) :
    (xs.takeWhile p).length ≤ xs.length := by
  have h := congrArg List.length (List.takeWhile_append_dropWhile p xs)
  simp only [List.length_append] at h
  omega

theorem numRun_prefix : ∀ (suf : List Char) (dotFound : Bool) (run : List Char) (df : Bool),
    numRun dotFound suf = .ok (run, df) → suf.take run.length = run ∧ run.length ≤ suf.length := by
  intro suf
  induction suf with
  | nil =>
    intro dotFound run df h
    simp only [numRun, Except.ok.injEq, Prod.mk.injEq] at h
    simp [← h.1]
  | cons c cs ih =>
    intro dotFound run df h
    simp only [numRun] at h
    by_cases hdot : c = '.'
    · simp only [hdot, if_true] at h
      cases dotFound with
      | true => simp at h
      | false =>
        simp only [Bool.false_eq_true, if_false] at h
        cases hr : numRun true cs with
        | error k => simp [hr] at h
        | ok p =>
          obtain ⟨run1, df1⟩ := p
          simp only [hr, Except.ok.injEq, Prod.mk.injEq] at h
          have := ih true run1 df1 hr
          rw [← h.1, hdot]
          simp [this.1, this.2]
    · simp only [hdot, if_false] at h
      by_cases hdig : isDigit c = true
      · simp only [hdig, if_true] at h
        cases hr : numRun dotFound cs with
        | error k => simp [hr] at h
        | ok p =>
          obtain ⟨run1, df1⟩ := p
          simp only [hr, Except.ok.injEq, Prod.mk.injEq] at h
          have := ih dotFound run1 df1 hr
          rw [← h.1]
          simp [this.1, this.2]
      · have hdig2 : isDigit c = false := by simpa using hdig
        simp only [hdig2, Bool.false_eq_true, if_false, Except.ok.injEq, Prod.mk.injEq] at h
        simp [← h.1]

theorem handlerOf_whitespace {c : Char} (h : handlerOf c = some .WhitespaceHandler) :
    isWhitespace c = true := by
  unfold handlerOf at h
  unfold isWhitespace
  split_ifs at h <;> simp_all

theorem handlerOf_ident {c : Char} (h : handlerOf c = some .IdentHandler) :
    isIdentRune c = true := by
  unfold handlerOf at h
  unfold isIdentRune
  split_ifs at h <;> simp_all

theorem scanStep_ok {pos : Nat} {suf : List Char} {k : Nat} {t : Token}
    (h : scanStep pos suf = .ok (k, t)) :
    0 < k ∧ k ≤ suf.length ∧ t.Pos = ⟨pos, pos + k⟩ ∧ t.Kind ≠ .Eof ∧
      t.source = suf.take k := by
  cases suf with
  | nil => simp [scanStep] at h
  | cons c rest =>
    simp only [scanStep] at h
    cases hh : handlerOf c with
    | none => simp [hh] at h
    | some hd =>
      simp only [hh] at h
      cases hd with
      | WhitespaceHandler =>
        have hw := handlerOf_whitespace hh
        simp only [handlerStep, whitespaceStep, Except.ok.injEq, Prod.mk.injEq] at h
        obtain ⟨hk, ht⟩ := h
        subst hk
        rw [← ht]
        refine ⟨?_, length_takeWhile_le _ _, rfl, by simp, ?_⟩
        · simp [List.takeWhile_cons, hw]
        · simp only [Token.source]
          rw [take_length_takeWhile]
          simp
      | IdentHandler =>
        have hw := handlerOf_ident hh
        simp only [handlerStep, identStep, Except.ok.injEq, Prod.mk.injEq] at h
        obtain ⟨hk, ht⟩ := h
        subst hk
        rw [← ht]
        refine ⟨?_, length_takeWhile_le _ _, rfl, by simp, ?_⟩
        · simp [List.takeWhile_cons, hw]
        · simp only [Token.source]
          rw [take_length_takeWhile]
          simp
      | StringHandler =>
        simp only [handlerStep, stringStep] at h
        by_cases hq : c = dq
        · simp only [hq, if_true] at h
          cases hdw : rest.dropWhile (fun x => decide (x ≠ dq)) with
          | nil => simp only [hdw, reduceCtorEq] at h
          | cons c2 r2 =>
            have hc2 : c2 = dq := by simpa using dropWhile_head_false _ rest hdw
            have hrest := List.takeWhile_append_dropWhile (fun x => decide (x ≠ dq)) rest
            rw [hdw, hc2] at hrest
            simp only [hdw, Except.ok.injEq, Prod.mk.injEq] at h
            obtain ⟨hk, ht⟩ := h
            subst hk
            rw [← ht, hq]
            refine ⟨by omega, ?_, rfl, by simp, ?_⟩
            · have := congrArg List.length hrest
              simp at this ⊢
              omega
            · simp only [Token.source, if_true]
              generalize List.takeWhile (fun x => decide (x ≠ dq)) rest = body at hrest ⊢
              subst hrest
              have e1 : body.length + 2 = (dq :: (body ++ [dq])).length := by simp
              have e2 : dq :: (body ++ dq :: r2) = (dq :: (body ++ [dq])) ++ r2 := by simp
              rw [e1, e2, List.take_left]
        · simp [hq] at h
      | NumericHandler =>
        simp only [handlerStep] at h
        obtain ⟨c1, rest1, run, df, hsuf, hrun, hk, ht, -, hne⟩ := numericStep_ok h
        obtain ⟨hc, hr⟩ := List.cons.inj hsuf
        subst hc hr
        have hkind : t.Kind ≠ .String ∧ t.Kind ≠ .Eof := by
          rw [ht]; cases df <;> simp
        have hpre := numRun_prefix _ _ _ _ hrun
        refine ⟨?_, ?_, by rw [ht], hkind.2, ?_⟩
        · rw [hk, ← List.length_append]
          exact List.length_pos.mpr hne
        · rw [hk]
          by_cases hm : c = '-'
          · simp only [hm, if_true] at hpre ⊢
            simp; omega
          · simp only [hm, if_false] at hpre ⊢
            simpa using hpre.2
        · simp only [Token.source, hkind.1, if_false]
          rw [ht, hk]
          by_cases hm : c = '-'
          · simp only [hm, if_true] at hpre ⊢
            simp only [List.length_singleton, List.singleton_append]
            rw [Nat.add_comm, List.take_succ_cons, hpre.1]
          · simp only [hm, if_false] at hpre ⊢
            simpa using hpre.1.symm
      | SymbolHandler =>
        simp only [handlerStep, symbolStep] at h
        split_ifs at h <;>
          simp only [Except.ok.injEq, Prod.mk.injEq] at h <;>
          obtain ⟨hk, ht⟩ := h <;>
          subst hk <;>
          rw [← ht] <;>
          simp [Token.source]

/-! ## The rounds of a successful call -/

theorem scanFrom_ok (fuel : Nat) : ∀ (pos : Nat) (suf : List Char) (ts : List Token),
    scanFrom fuel pos suf = .ok ts →
    ∃ body, ts = body ++ [eofToken (pos + suf.length)] ∧ Rounds pos suf body := by
  induction fuel with
  | zero => intro pos suf ts h; simp [scanFrom] at h
  | succ fuel ih =>
    intro pos suf ts h
    cases suf with
    | nil =>
      simp only [scanFrom, Except.ok.injEq] at h
      exact ⟨[], by simp [← h, eofToken], Rounds.done pos⟩
    | cons c rest =>
      simp only [scanFrom] at h
      cases hstep : scanStep pos (c :: rest) with
      | error f => simp [hstep] at h
      | ok p =>
        obtain ⟨k, t⟩ := p
        simp only [hstep] at h
        cases hrec : scanFrom fuel (pos + k) ((c :: rest).drop k) with
        | error f => simp [hrec] at h
        | ok ts1 =>
          simp only [hrec, Except.ok.injEq] at h
          obtain ⟨body, hb, hr⟩ := ih _ _ _ hrec
          have hk := (scanStep_ok hstep).2.1
          refine ⟨t :: body, ?_, Rounds.round hstep hr⟩
          rw [← h, hb, List.length_drop]
          have : pos + k + ((c :: rest).length - k) = pos + (c :: rest).length := by omega
          rw [this]
          rfl

theorem scanStep_ne_outOfFuel (pos : Nat) (suf : List Char) :
    scanStep pos suf ≠ .error .outOfFuel := by
  intro h
  cases suf with
  | nil => simp [scanStep] at h
  | cons c rest =>
    simp only [scanStep] at h
    cases hh : handlerOf c with
    | none => simp [hh] at h
    | some hd =>
      simp only [hh] at h
      cases hd with
      | WhitespaceHandler => simp [handlerStep] at h
      | IdentHandler => simp [handlerStep] at h
      | StringHandler =>
        simp only [handlerStep, stringStep] at h
        split_ifs at h
        · split at h <;> simp at h
        · simp at h
      | NumericHandler =>
        simp only [handlerStep, numericStep] at h
        generalize (if c = '-' then rest else c :: rest) = s1 at h
        generalize (if c = '-' then [c] else []) = sign at h
        cases s1 with
        | nil => simp at h
        | cons d r1 =>
          simp only [] at h
          split_ifs at h
          · simp at h
          · cases hr : numRun false (d :: r1) with
            | error k => simp [hr] at h
            | ok p =>
              simp only [hr] at h
              cases hl : (sign ++ p.1).getLast? with
              | none => simp [hl] at h
              | some last =>
                simp only [hl] at h
                split_ifs at h; simp at h
      | SymbolHandler =>
        simp only [handlerStep, symbolStep] at h
        split_ifs at h; simp at h

theorem scanFrom_ne_outOfFuel (fuel : Nat) : ∀ (pos : Nat) (suf : List Char),
    suf.length < fuel → scanFrom fuel pos suf ≠ .error .outOfFuel := by
  induction fuel with
  | zero => intro pos suf h; omega
  | succ fuel ih =>
    intro pos suf hf h
    cases suf with
    | nil => simp [scanFrom] at h
    | cons c rest =>
      simp only [scanFrom] at h
      cases hstep : scanStep pos (c :: rest) with
      | error f =>
        simp only [hstep, Except.error.injEq] at h
        exact scanStep_ne_outOfFuel pos (c :: rest) (h ▸ hstep)
      | ok p =>
        obtain ⟨k, t⟩ := p
        simp only [hstep] at h
        have hk := scanStep_ok hstep
        have hlen : ((c :: rest).drop k).length < fuel := by
          rw [List.length_drop]
          have := hk.1
          simp only [List.length_cons] at hf ⊢
          omega
        cases hrec : scanFrom fuel (pos + k) ((c :: rest).drop k) with
        | error f =>
          simp only [hrec, Except.error.injEq] at h
          exact ih _ _ hlen (h ▸ hrec)
        | ok ts1 => simp [hrec] at h

/-- The step budget that `Lex` hands to its loop is never used up. -/
theorem Lex_ne_outOfFuel (opts : LexOptions) (script : List Char) :
    Lex opts script ≠ .error .outOfFuel := by
  rw [Lex_eq]
  intro h
  cases hs : scanFrom (script.length + 1) 0 script with
  | error f =>
    simp only [hs, Except.error.injEq] at h
    exact scanFrom_ne_outOfFuel _ 0 script (Nat.lt_succ_self _) (h ▸ hs)
  | ok ts => simp [hs] at h

theorem Rounds_facts {pos : Nat} {suf : List Char} {body : List Token}
    (h : Rounds pos suf body) :
    (∀ t ∈ body, t.Pos.StartedAt ≤ t.Pos.EndedAt ∧ t.Kind ≠ .Eof) ∧
    (body.map Token.source).flatten = suf ∧
    (∀ a : Token, a.Pos.EndedAt = pos →
      List.Chain (fun x y => y.Pos.StartedAt = x.Pos.EndedAt) a
        (body ++ [eofToken (pos + suf.length)])) := by
  induction h with
  | done pos =>
    refine ⟨by simp, by simp, ?_⟩
    intro a ha
    simp [eofToken, ha]
  | @round pos suf k t ts hstep _ ih =>
    obtain ⟨hk0, hk, hpos, hkind, hsrc⟩ := scanStep_ok hstep
    obtain ⟨ih1, ih2, ih3⟩ := ih
    refine ⟨?_, ?_, ?_⟩
    · intro x hx
      rcases List.mem_cons.mp hx with rfl | hx
      · exact ⟨by rw [hpos]; simp, hkind⟩
      · exact ih1 x hx
    · simp only [List.map_cons, List.flatten_cons, ih2, hsrc]
      exact List.take_append_drop k suf
    · intro a ha
      have hend : pos + k + (suf.drop k).length = pos + suf.length := by
        rw [List.length_drop]; omega
      rw [hend] at ih3
      simp only [List.cons_append, List.chain_cons]
      exact ⟨by rw [hpos, ha], ih3 t (by rw [hpos])⟩

theorem Lex_ok_rounds {opts : LexOptions} {script : List Char} {ts : List Token}
    (h : Lex opts script = .ok ts) :
    ∃ body, Rounds 0 script body ∧
      ts = body.filter (kept opts) ++ [eofToken script.length] := by
  rw [Lex_eq] at h
  cases hs : scanFrom (script.length + 1) 0 script with
  | error f => simp [hs] at h
  | ok ts0 =>
    simp only [hs, Except.ok.injEq] at h
    obtain ⟨body, hb, hr⟩ := scanFrom_ok _ _ _ _ hs
    refine ⟨body, hr, ?_⟩
    rw [← h, hb, List.filter_append]
    simp [kept, eofToken]

theorem kept_not_clean (t : Token) : kept ⟨false⟩ t = true := by
  simp [kept]

/-! ## The claims -/

/-- C1, refuted on the code: on the one-rune script `-`, under either value of
`Clean`, `Lex` does not return: `NumericHandler.Handle` reads the sign, the
cursor reaches the end of the input, and `consume('.')` reads
`l.chars[l.pos]` with `l.pos = len(l.chars)`. -/
theorem Lex_minus_index_out_of_range :
    Lex ⟨false⟩ ['-'] = .error .indexOutOfRange ∧
      Lex ⟨true⟩ ['-'] = .error .indexOutOfRange := by
  decide

/-- C2 as stated fails: on the script `"hi"` (with its quotes) the call with
`Clean = false` succeeds, and the `Raw` contents concatenated are `hi`, not the
script. -/
theorem Lex_raw_concat_counterexample :
    ¬ (∀ ts, Lex ⟨false⟩ [dq, 'h', 'i', dq] = .ok ts →
        (ts.map Token.Raw).flatten = [dq, 'h', 'i', dq]) := by
  intro h
  have := h [⟨⟨0, 4⟩, .String, ['h', 'i']⟩, ⟨⟨4, 4⟩, .Eof, []⟩] (by decide)
  revert this
  decide

/-- C2, amended: when `Lex` with `Clean = false` succeeds, concatenating in
stream order the `Raw` of every token, the `Raw` of a `String` token being put
back between its two double quotes, gives the script exactly. -/
theorem Lex_source_roundtrip (script : List Char) (ts : List Token)
    (h : Lex ⟨false⟩ script = .ok ts) :
    (ts.map Token.source).flatten = script := by
  obtain ⟨body, hr, hts⟩ := Lex_ok_rounds h
  have hf : body.filter (kept ⟨false⟩) = body :=
    List.filter_eq_self.mpr (fun t _ => kept_not_clean t)
  rw [hts, hf]
  simp [(Rounds_facts hr).2.1, eofToken, Token.source]

theorem Lex_source_roundtrip_witness :
    Lex ⟨false⟩ sampleScript = .ok sampleStream ∧
      (sampleStream.map Token.source).flatten = sampleScript :=
  ⟨by decide, Lex_source_roundtrip sampleScript sampleStream (by decide)⟩

/-- C3: when `Lex` with `Clean = false` succeeds on a script of `n` runes, every
token has `StartedAt ≤ EndedAt`, the first token starts at `0`, every later
token starts where the token before it ends, and the last token ends at `n`;
the offsets count runes. -/
theorem Lex_spans_tile (script : List Char) (ts : List Token)
    (h : Lex ⟨false⟩ script = .ok ts) :
    (∀ t ∈ ts, t.Pos.StartedAt ≤ t.Pos.EndedAt) ∧
    (∃ t, ts.head? = some t ∧ t.Pos.StartedAt = 0) ∧
    List.Chain' (fun x y => y.Pos.StartedAt = x.Pos.EndedAt) ts ∧
    (∃ t, ts.getLast? = some t ∧ t.Pos.EndedAt = script.length) := by
  obtain ⟨body, hr, hts⟩ := Lex_ok_rounds h
  have hf : body.filter (kept ⟨false⟩) = body :=
    List.filter_eq_self.mpr (fun t _ => kept_not_clean t)
  rw [hf] at hts
  obtain ⟨h1, -, h3⟩ := Rounds_facts hr
  have hchain := h3 ⟨⟨0, 0⟩, .Illegal, []⟩ rfl
  rw [Nat.zero_add, ← hts] at hchain
  refine ⟨?_, ?_, ?_, ?_⟩
  · intro t ht
    rw [hts] at ht
    rcases List.mem_append.mp ht with hb | he
    · exact (h1 t hb).1
    · rw [List.mem_singleton.mp he]
      simp [eofToken]
  · cases ts with
    | nil => simp at hts
    | cons t rest =>
      refine ⟨t, rfl, ?_⟩
      simpa using (List.chain_cons.mp hchain).1
  · have hc : List.Chain' (fun x y : Token => y.Pos.StartedAt = x.Pos.EndedAt)
        (⟨⟨0, 0⟩, .Illegal, []⟩ :: ts) := hchain
    exact hc.tail
  · exact ⟨eofToken script.length, by rw [hts]; simp, rfl⟩

theorem Lex_spans_tile_witness :
    Lex ⟨false⟩ sampleScript = .ok sampleStream ∧
      ((∀ t ∈ sampleStream, t.Pos.StartedAt ≤ t.Pos.EndedAt) ∧
        (∃ t, sampleStream.head? = some t ∧ t.Pos.StartedAt = 0) ∧
        List.Chain' (fun x y => y.Pos.StartedAt = x.Pos.EndedAt) sampleStream ∧
        (∃ t, sampleStream.getLast? = some t ∧ t.Pos.EndedAt = sampleScript.length)) :=
  ⟨by decide, Lex_spans_tile sampleScript sampleStream (by decide)⟩

/-- C4: when `Lex` succeeds on a script of `n` runes, under either value of
`Clean`, the stream is not empty, exactly one of its tokens has kind `Eof`, and
its last token is that one, with `StartedAt = EndedAt = n` and an empty `Raw`. -/
theorem Lex_one_eof_last (opts : LexOptions) (script : List Char) (ts : List Token)
    (h : Lex opts script = .ok ts) :
    ts ≠ [] ∧ ts.countP (fun t => decide (t.Kind = .Eof)) = 1 ∧
      ts.getLast? = some ⟨⟨script.length, script.length⟩, .Eof, []⟩ := by
  obtain ⟨body, hr, hts⟩ := Lex_ok_rounds h
  obtain ⟨h1, -, -⟩ := Rounds_facts hr
  refine ⟨by rw [hts]; simp, ?_, by rw [hts]; simp [eofToken]⟩
  rw [hts, List.countP_append]
  have h0 : (body.filter (kept opts)).countP (fun t => decide (t.Kind = .Eof)) = 0 := by
    rw [List.countP_eq_zero]
    intro t ht
    simpa using (h1 t (List.mem_of_mem_filter ht)).2
  rw [h0]
  simp [eofToken]

theorem Lex_one_eof_last_witness :
    Lex ⟨true⟩ sampleScript = .ok sampleCleanStream ∧
      (sampleCleanStream ≠ [] ∧
        sampleCleanStream.countP (fun t => decide (t.Kind = .Eof)) = 1 ∧
        sampleCleanStream.getLast? =
          some ⟨⟨sampleScript.length, sampleScript.length⟩, .Eof, []⟩) :=
  ⟨by decide, Lex_one_eof_last ⟨true⟩ sampleScript sampleCleanStream (by decide)⟩

/-- C5: for every script, `Lex` with `Clean = true` ends with a fault exactly
when `Lex` with `Clean = false` does, and then with the same fault; otherwise
its stream is the stream of `Clean = false` without the tokens of kind
`Whitespace`, the other tokens being unchanged and in the same order. -/
theorem Lex_clean_eq_filter (script : List Char) :
    Lex ⟨true⟩ script =
      match Lex ⟨false⟩ script with
      | .error f => .error f
      | .ok ts => .ok (ts.filter (fun t => decide (t.Kind ≠ .Whitespace))) := by
  rw [Lex_eq ⟨true⟩, Lex_eq ⟨false⟩]
  cases scanFrom (script.length + 1) 0 script with
  | error f => rfl
  | ok ts0 =>
    have hf : ts0.filter (kept ⟨false⟩) = ts0 :=
      List.filter_eq_self.mpr (fun t _ => kept_not_clean t)
    simp only [hf]
    congr 1
    apply List.filter_congr
    intro t _
    simp [kept]

/-! ## Scripts of one token -/

theorem Lex_single {opts : LexOptions} {script : List Char} {t : Token}
    (hne : script ≠ []) (hstep : scanStep 0 script = .ok (script.length, t))
    (hk : t.Kind ≠ .Whitespace) :
    Lex opts script = .ok [t, eofToken script.length] := by
  rw [Lex_eq]
  cases script with
  | nil => exact absurd rfl hne
  | cons c rest =>
    simp only [scanFrom, hstep, List.drop_length, List.length_cons, Nat.zero_add]
    simp [scanFrom, kept, hk, eofToken]

theorem Lex_fails_first {opts : LexOptions} {script : List Char} {f : Fault}
    (hne : script ≠ []) (hstep : scanStep 0 script = .error f) :
    Lex opts script = .error f := by
  rw [Lex_eq]
  cases script with
  | nil => exact absurd rfl hne
  | cons c rest => simp only [scanFrom, hstep]

theorem handlerOf_dq : handlerOf dq = some .StringHandler := by decide

theorem handlerOf_minus : handlerOf '-' = some .NumericHandler := by decide

theorem handlerOf_digit {c : Char} (h : isDigit c = true) :
    handlerOf c = some .NumericHandler := by
  simp only [isDigit, decide_eq_true_eq, List.mem_cons, List.mem_singleton,
    List.not_mem_nil, or_false] at h
  rcases h with rfl | rfl | rfl | rfl | rfl | rfl | rfl | rfl | rfl | rfl <;> decide

theorem digit_ne {c : Char} (h : isDigit c = true) : c ≠ '.' ∧ c ≠ '-' := by
  simp only [isDigit, decide_eq_true_eq, List.mem_cons, List.mem_singleton,
    List.not_mem_nil, or_false] at h
  rcases h with rfl | rfl | rfl | rfl | rfl | rfl | rfl | rfl | rfl | rfl <;> decide

theorem handlerOf_symbol {c : Char} (h : c = lcb ∨ c = rcb ∨ c = '=') :
    handlerOf c = some .SymbolHandler := by
  rcases h with rfl | rfl | rfl <;> decide

theorem handlerOf_identRune {c : Char} (h : isIdentRune c = true) :
    handlerOf c = some .IdentHandler := by
  have h1 : c ∉ [' ', '\n', '\r', '\t'] := by
    intro hm
    simp only [List.mem_cons, List.mem_singleton, List.not_mem_nil, or_false] at hm
    rcases hm with rfl | rfl | rfl | rfl <;> revert h <;> decide
  have h2 : c ∉ [dq] := by
    intro hm
    simp only [List.mem_singleton] at hm
    subst hm
    revert h
    decide
  have h3 : c ∉ ['0', '1', '2', '3', '4', '5', '6', '7', '8', '9', '-'] := by
    intro hm
    simp only [List.mem_cons, List.mem_singleton, List.not_mem_nil, or_false] at hm
    rcases hm with rfl | rfl | rfl | rfl | rfl | rfl | rfl | rfl | rfl | rfl | rfl <;>
      revert h <;> decide
  have h4 : c ∉ [lcb, rcb, '='] := by
    intro hm
    simp only [List.mem_cons, List.mem_singleton, List.not_mem_nil, or_false] at hm
    rcases hm with rfl | rfl | rfl <;> revert h <;> decide
  simp only [handlerOf, h1, h2, h3, h4, if_false]
  simp only [isIdentRune, Bool.or_eq_true, decide_eq_true_eq] at h
  rcases h with ha | hu
  · simp [ha]
  · simp [hu]

theorem numRun_digits_append : ∀ (d : List Char), (∀ c ∈ d, isDigit c = true) →
    ∀ (dotFound : Bool) (rest : List Char),
    numRun dotFound (d ++ rest) =
      match numRun dotFound rest with
      | .error k => .error (k + d.length)
      | .ok (run, df) => .ok (d ++ run, df) := by
  intro d
  induction d with
  | nil =>
    intro _ dotFound rest
    simp only [List.nil_append, List.length_nil, Nat.add_zero]
    cases numRun dotFound rest <;> rfl
  | cons c cs ih =>
    intro hd dotFound rest
    have hc := hd c (List.mem_cons_self _ _)
    have hcs : ∀ x ∈ cs, isDigit x = true := fun x hx => hd x (List.mem_cons_of_mem _ hx)
    rw [List.cons_append]
    simp only [numRun, (digit_ne hc).1, if_false, hc, if_true]
    rw [ih hcs dotFound rest]
    cases numRun dotFound rest with
    | error k => rfl
    | ok p => rfl

theorem numRun_digits (d : List Char) (hd : ∀ c ∈ d, isDigit c = true) (dotFound : Bool) :
    numRun dotFound d = .ok (d, dotFound) := by
  have h := numRun_digits_append d hd dotFound []
  simpa [numRun] using h

/-- The round of `NumericHandler` once the sign `m`, empty or `-`, is set apart. -/
theorem numericStep_sign (pos : Nat) {m : List Char} (hm : m = [] ∨ m = ['-'])
    (d : Char) (r : List Char) (hd : m = [] → d ≠ '-') :
    numericStep pos (m ++ d :: r) =
      if d = '.' then .error (.error (.numericStartedWithDot (pos + m.length + 1)))
      else
        match numRun false (d :: r) with
        | .error k => .error (.error (.numericIncludeMultipleDots (pos + m.length + k)))
        | .ok (run, df) =>
          match (m ++ run).getLast? with
          | none => .error .numIndexOutOfRange
          | some last =>
            if last = '.' then
              .error (.error (.numericEndedWithDot (pos + m.length + run.length)))
            else
              .ok (m.length + run.length,
                ⟨⟨pos, pos + (m.length + run.length)⟩,
                  if df then .Float else .Integer, m ++ run⟩) := by
  rcases hm with rfl | rfl
  · have := hd rfl
    simp [numericStep, this]
  · simp [numericStep]

theorem scanStep_numeric (pos : Nat) {m : List Char} (hm : m = [] ∨ m = ['-'])
    {d : Char} (hd : isDigit d = true) (r : List Char) :
    scanStep pos (m ++ d :: r) = numericStep pos (m ++ d :: r) := by
  rcases hm with rfl | rfl
  · simp [scanStep, handlerOf_digit hd, handlerStep]
  · simp [scanStep, handlerOf_minus, handlerStep]

theorem scanStep_literal (pos : Nat) {m : List Char} (hm : m = [] ∨ m = ['-'])
    {d : Char} (hd : isDigit d = true) (r : List Char) (df : Bool)
    (hrun : numRun false (d :: r) = .ok (d :: r, df))
    {x : Char} (hx : (d :: r).getLast? = some x) (hxd : isDigit x = true) :
    scanStep pos (m ++ d :: r) =
      .ok ((m ++ d :: r).length,
        ⟨⟨pos, pos + (m ++ d :: r).length⟩, if df then .Float else .Integer, m ++ d :: r⟩) := by
  rw [scanStep_numeric pos hm hd, numericStep_sign pos hm d r (fun _ => (digit_ne hd).2)]
  have hlast : (m ++ d :: r).getLast? = some x := by
    rw [List.getLast?_append_of_ne_nil _ (List.cons_ne_nil d r), hx]
  simp only [(digit_ne hd).1, if_false, hrun, hlast, (digit_ne hxd).1, List.length_append]

theorem takeWhile_dropWhile_stop (p : Char → Bool) : ∀ (s : List Char) (x : Char)
    (r : List Char), (∀ c ∈ s, p c = true) → p x = false →
    (s ++ x :: r).takeWhile p = s ∧ (s ++ x :: r).dropWhile p = x :: r := by
  intro s
  induction s with
  | nil => intro x r _ hx; simp [List.takeWhile_cons, List.dropWhile_cons, hx]
  | cons c cs ih =>
    intro x r hs hx
    have hc := hs c (List.mem_cons_self _ _)
    have := ih x r (fun y hy => hs y (List.mem_cons_of_mem _ hy)) hx
    simp [List.takeWhile_cons, List.dropWhile_cons, hc, this.1, this.2]

/-- C6: for a sign `m`, empty or `-`, and non-empty strings `d`, `e` of ASCII
digits, `Lex` on `m ++ d` gives one `Integer` token with `Raw = m ++ d` over the
whole script and then `Eof`, and `Lex` on `m ++ d ++ "." ++ e` gives one `Float`
token whose `Raw` is the whole script, over the whole script, and then `Eof`. -/
theorem Lex_numeric_literal (opts : LexOptions) (m d e : List Char)
    (hm : m = [] ∨ m = ['-'])
    (hd : d ≠ []) (hdd : ∀ c ∈ d, isDigit c = true)
    (he : e ≠ []) (hed : ∀ c ∈ e, isDigit c = true) :
    Lex opts (m ++ d) =
        .ok [⟨⟨0, (m ++ d).length⟩, .Integer, m ++ d⟩,
          ⟨⟨(m ++ d).length, (m ++ d).length⟩, .Eof, []⟩] ∧
      Lex opts (m ++ d ++ '.' :: e) =
        .ok [⟨⟨0, (m ++ d ++ '.' :: e).length⟩, .Float, m ++ d ++ '.' :: e⟩,
          ⟨⟨(m ++ d ++ '.' :: e).length, (m ++ d ++ '.' :: e).length⟩, .Eof, []⟩] := by
  cases d with
  | nil => exact absurd rfl hd
  | cons c cs =>
    have hc : isDigit c = true := hdd c (List.mem_cons_self _ _)
    constructor
    · have hx := List.getLast?_eq_getLast (c :: cs) (List.cons_ne_nil c cs)
      have hstep := scanStep_literal 0 hm hc cs false (numRun_digits _ hdd false) hx
        (hdd _ (List.getLast_mem _))
      have := @Lex_single opts _ _ (by simp) hstep (by simp)
      simpa [eofToken] using this
    · have hrun : numRun false (c :: (cs ++ '.' :: e)) = .ok (c :: (cs ++ '.' :: e), true) := by
        have h1 := numRun_digits_append (c :: cs) hdd false ('.' :: e)
        have h2 : numRun false ('.' :: e) = .ok ('.' :: e, true) := by
          simp [numRun, numRun_digits e hed true]
        rw [h2] at h1
        simpa using h1
      have hx : (c :: (cs ++ '.' :: e)).getLast? = some (e.getLast he) := by
        have e1 : c :: (cs ++ '.' :: e) = (c :: cs ++ ['.']) ++ e := by simp
        rw [e1, List.getLast?_append_of_ne_nil _ he, List.getLast?_eq_getLast e he]
      have hstep := scanStep_literal 0 hm hc (cs ++ '.' :: e) true hrun hx
        (hed _ (List.getLast_mem _))
      have := @Lex_single opts _ _ (by simp) hstep (by simp)
      simpa [eofToken] using this

theorem Lex_numeric_literal_witness :
    ((['-'] : List Char) = [] ∨ (['-'] : List Char) = ['-']) ∧
      Lex ⟨false⟩ (['-'] ++ ['1', '2', '3']) =
        .ok [⟨⟨0, 4⟩, .Integer, ['-', '1', '2', '3']⟩, ⟨⟨4, 4⟩, .Eof, []⟩] ∧
      Lex ⟨false⟩ (['-'] ++ ['1', '2', '3'] ++ '.' :: ['4']) =
        .ok [⟨⟨0, 6⟩, .Float, ['-', '1', '2', '3', '.', '4']⟩, ⟨⟨6, 6⟩, .Eof, []⟩] :=
  ⟨by decide,
    Lex_numeric_literal ⟨false⟩ ['-'] ['1', '2', '3'] ['4'] (by decide) (by decide)
      (by decide) (by decide) (by decide)⟩

/-- C7: for every sequence `s` of runes without a double quote, `Lex` on `s`
between two double quotes gives one `String` token with `Raw = s`, the quotes
left out and no rune of `s` altered, over the span `[0, |s| + 2)`, and then
`Eof` at `|s| + 2`. -/
theorem Lex_string_literal (opts : LexOptions) (s : List Char) (hs : dq ∉ s) :
    Lex opts (dq :: (s ++ [dq])) =
      .ok [⟨⟨0, s.length + 2⟩, .String, s⟩, ⟨⟨s.length + 2, s.length + 2⟩, .Eof, []⟩] := by
  have hp : ∀ c ∈ s, decide (c ≠ dq) = true := by
    intro c hc
    simp only [decide_eq_true_eq]
    rintro rfl
    exact hs hc
  obtain ⟨ht, hdw⟩ := takeWhile_dropWhile_stop (fun x => decide (x ≠ dq)) s dq [] hp
    (by simp)
  have hstep : scanStep 0 (dq :: (s ++ [dq])) =
      .ok ((dq :: (s ++ [dq])).length, ⟨⟨0, 0 + (s.length + 2)⟩, .String, s⟩) := by
    simp only [scanStep, handlerOf_dq, handlerStep, stringStep, if_true, ht, hdw,
      List.length_cons, List.length_append, List.length_singleton, List.length_nil]
  have := @Lex_single opts _ _ (by simp) hstep (by simp)
  simpa [eofToken] using this

theorem Lex_string_literal_witness :
    dq ∉ ['a', '\\', 'n', '\n', ' '] ∧
      Lex ⟨false⟩ (dq :: (['a', '\\', 'n', '\n', ' '] ++ [dq])) =
        .ok [⟨⟨0, 5 + 2⟩, .String, ['a', '\\', 'n', '\n', ' ']⟩, ⟨⟨5 + 2, 5 + 2⟩, .Eof, []⟩] :=
  ⟨by decide, Lex_string_literal ⟨false⟩ ['a', '\\', 'n', '\n', ' '] (by decide)⟩

/-- C8: for every sequence `s` of runes without a double quote and either value
of `Clean`, `Lex` on a double quote followed by `s` returns no stream and the
error "string without closing dq: at=k" with `k = |s| + 1`, the length of the
script. -/
theorem Lex_unterminated_string (opts : LexOptions) (s : List Char) (hs : dq ∉ s) :
    Lex opts (dq :: s) = .error (.error (.stringWithoutClosingDq (s.length + 1))) := by
  have hp : ∀ c ∈ s, (fun x => decide (x ≠ dq)) c = true := by
    intro c hc
    simp only [decide_eq_true_eq]
    rintro rfl
    exact hs hc
  have ht : s.takeWhile (fun x => decide (x ≠ dq)) = s := List.takeWhile_eq_self_iff.mpr hp
  have hdw : s.dropWhile (fun x => decide (x ≠ dq)) = [] := List.dropWhile_eq_nil_iff.mpr hp
  have hstep : scanStep 0 (dq :: s) =
      .error (.error (.stringWithoutClosingDq (s.length + 1))) := by
    simp only [scanStep, handlerOf_dq, handlerStep, stringStep, if_true, ht, hdw]
    rw [Nat.zero_add, Nat.add_comm]
  exact Lex_fails_first (by simp) hstep

theorem Lex_unterminated_string_witness :
    dq ∉ ['u', 'n', 'c', 'l', 'o', 's', 'e', 'd'] ∧
      Lex ⟨true⟩ (dq :: ['u', 'n', 'c', 'l', 'o', 's', 'e', 'd']) =
        .error (.error (.stringWithoutClosingDq (8 + 1))) :=
  ⟨by decide, Lex_unterminated_string ⟨true⟩ ['u', 'n', 'c', 'l', 'o', 's', 'e', 'd'] (by decide)⟩

/-- C9: for every non-empty string `s` of ASCII letters and underscores, `Lex`
on `s` gives one `Ident` token with `Raw = s` over `[0, |s|)` and then `Eof` at
`|s|`. -/
theorem Lex_identifier (opts : LexOptions) (s : List Char) (hne : s ≠ [])
    (hs : ∀ c ∈ s, isIdentRune c = true) :
    Lex opts s = .ok [⟨⟨0, s.length⟩, .Ident, s⟩, ⟨⟨s.length, s.length⟩, .Eof, []⟩] := by
  have ht : s.takeWhile isIdentRune = s := List.takeWhile_eq_self_iff.mpr hs
  have hstep : scanStep 0 s = .ok (s.length, ⟨⟨0, 0 + s.length⟩, .Ident, s⟩) := by
    cases s with
    | nil => exact absurd rfl hne
    | cons c cs =>
      simp only [scanStep, handlerOf_identRune (hs c (List.mem_cons_self _ _)), handlerStep,
        identStep, ht]
  have := @Lex_single opts _ _ hne hstep (by simp)
  simpa [eofToken] using this

theorem Lex_identifier_witness :
    (['o', 'n', '_', 'S', 't', 'a', 'r', 't'] : List Char) ≠ [] ∧
      Lex ⟨false⟩ ['o', 'n', '_', 'S', 't', 'a', 'r', 't'] =
        .ok [⟨⟨0, 8⟩, .Ident, ['o', 'n', '_', 'S', 't', 'a', 'r', 't']⟩, ⟨⟨8, 8⟩, .Eof, []⟩] :=
  ⟨by decide, Lex_identifier ⟨false⟩ ['o', 'n', '_', 'S', 't', 'a', 'r', 't'] (by decide)
    (by decide)⟩

/-! ## Scripts of symbols -/

theorem scanStep_symbol (pos : Nat) {c : Char} (hc : c = lcb ∨ c = rcb ∨ c = '=')
    (cs : List Char) :
    scanStep pos (c :: cs) = .ok (1, ⟨⟨pos, pos + 1⟩, symbolKind c, [c]⟩) := by
  simp only [scanStep, handlerOf_symbol hc, handlerStep, symbolStep, symbolKind]
  rcases hc with rfl | rfl | rfl
  · simp
  · have : ¬ rcb = lcb := by decide
    simp [this]
  · have h1 : ¬ '=' = lcb := by decide
    have h2 : ¬ '=' = rcb := by decide
    simp [h1, h2]

theorem scanFrom_symbols : ∀ (s : List Char) (fuel pos : Nat),
    (∀ c ∈ s, c = lcb ∨ c = rcb ∨ c = '=') → s.length < fuel →
    scanFrom fuel pos s = .ok (symbolTokens pos s ++ [eofToken (pos + s.length)]) := by
  intro s
  induction s with
  | nil =>
    intro fuel pos _ hf
    cases fuel with
    | zero => simp at hf
    | succ fuel => simp [scanFrom, symbolTokens, eofToken]
  | cons c cs ih =>
    intro fuel pos hs hf
    cases fuel with
    | zero => simp at hf
    | succ fuel =>
      have hc := hs c (List.mem_cons_self _ _)
      have hrec := ih fuel (pos + 1) (fun x hx => hs x (List.mem_cons_of_mem _ hx))
        (by simpa using hf)
      simp only [scanFrom, scanStep_symbol pos hc, List.drop_succ_cons, List.drop_zero, hrec,
        symbolTokens, List.length_cons, List.cons_append]
      have : pos + 1 + cs.length = pos + (cs.length + 1) := by omega
      rw [this]

theorem symbolTokens_kept (opts : LexOptions) : ∀ (s : List Char) (pos : Nat),
    (symbolTokens pos s).filter (kept opts) = symbolTokens pos s := by
  intro s
  induction s with
  | nil => intro pos; rfl
  | cons c cs ih =>
    intro pos
    have hk : kept opts ⟨⟨pos, pos + 1⟩, symbolKind c, [c]⟩ = true := by
      unfold kept symbolKind
      split_ifs <;> simp
    simp [symbolTokens, List.filter_cons, hk, ih]

theorem symbolTokens_length : ∀ (s : List Char) (pos : Nat),
    (symbolTokens pos s).length = s.length := by
  intro s
  induction s with
  | nil => intro pos; rfl
  | cons c cs ih => intro pos; simp [symbolTokens, ih]

theorem symbolTokens_getElem? : ∀ (s : List Char) (pos i : Nat) (c : Char),
    s[i]? = some c →
    (symbolTokens pos s)[i]? = some ⟨⟨pos + i, pos + i + 1⟩, symbolKind c, [c]⟩ := by
  intro s
  induction s with
  | nil => intro pos i c h; simp at h
  | cons x xs ih =>
    intro pos i c h
    cases i with
    | zero =>
      simp only [List.getElem?_cons_zero, Option.some.injEq] at h
      simp [symbolTokens, h]
    | succ i =>
      simp only [List.getElem?_cons_succ] at h
      have := ih (pos + 1) i c h
      simp only [symbolTokens, List.getElem?_cons_succ, this]
      have e : pos + 1 + i = pos + (i + 1) := by omega
      rw [e]

/-- C10: for every string `s` over the runes `{`, `}` and `=`, `Lex` on `s`
gives a stream of `|s| + 1` tokens; for `i < |s|` the token of index `i` has the
span `[i, i + 1)`, `Raw` the one rune `s[i]`, and the kind `Lcb`, `Rcb` or
`Assign` of that rune; the last token is `Eof` at `[|s|, |s|)`. -/
theorem Lex_symbols (opts : LexOptions) (s : List Char)
    (hs : ∀ c ∈ s, c = lcb ∨ c = rcb ∨ c = '=') :
    ∃ ts, Lex opts s = .ok ts ∧ ts.length = s.length + 1 ∧
      (∀ (i : Nat) (c : Char), s[i]? = some c →
        ts[i]? = some ⟨⟨i, i + 1⟩,
          if c = lcb then .Lcb else if c = rcb then .Rcb else .Assign, [c]⟩) ∧
      ts[s.length]? = some ⟨⟨s.length, s.length⟩, .Eof, []⟩ := by
  refine ⟨symbolTokens 0 s ++ [eofToken s.length], ?_, ?_, ?_, ?_⟩
  · rw [Lex_eq, scanFrom_symbols s _ 0 hs (Nat.lt_succ_self _), Nat.zero_add]
    simp [List.filter_append, symbolTokens_kept, kept, eofToken]
  · simp [symbolTokens_length]
  · intro i c hi
    have hlt : i < (symbolTokens 0 s).length := by
      rw [symbolTokens_length]
      by_contra hge
      rw [List.getElem?_eq_none (Nat.le_of_not_lt hge)] at hi
      exact Option.noConfusion hi
    rw [List.getElem?_append_left hlt, symbolTokens_getElem? s 0 i c hi]
    simp [symbolKind]
  · rw [List.getElem?_append_right (by rw [symbolTokens_length]), symbolTokens_length]
    simp [eofToken]

theorem Lex_symbols_witness :
    (∀ c ∈ [lcb, rcb, '='], c = lcb ∨ c = rcb ∨ c = '=') ∧
      ∃ ts, Lex ⟨false⟩ [lcb, rcb, '='] = .ok ts ∧ ts.length = [lcb, rcb, '='].length + 1 ∧
        (∀ (i : Nat) (c : Char), [lcb, rcb, '='][i]? = some c →
          ts[i]? = some ⟨⟨i, i + 1⟩,
            if c = lcb then .Lcb else if c = rcb then .Rcb else .Assign, [c]⟩) ∧
        ts[[lcb, rcb, '='].length]? =
          some ⟨⟨[lcb, rcb, '='].length, [lcb, rcb, '='].length⟩, .Eof, []⟩ :=
  ⟨by decide, Lex_symbols ⟨false⟩ [lcb, rcb, '='] (by decide)⟩

/-! ## The read `num[len(num)-1]` is never out of range -/

theorem handlerOf_numeric {c : Char} (h : handlerOf c = some .NumericHandler) :
    isDigit c = true ∨ c = '-' := by
  by_cases h3 : c ∈ ['0', '1', '2', '3', '4', '5', '6', '7', '8', '9', '-']
  · simp only [List.mem_cons, List.mem_singleton, List.not_mem_nil, or_false] at h3
    simp only [isDigit, decide_eq_true_eq, List.mem_cons, List.mem_singleton,
      List.not_mem_nil, or_false]
    tauto
  · exfalso
    unfold handlerOf at h
    simp only [h3, if_false] at h
    split_ifs at h <;> simp at h

theorem getLast?_cons_ne_none (x : Char) (xs : List Char) : (x :: xs).getLast? ≠ none := by
  rw [List.getLast?_eq_getLast (x :: xs) (List.cons_ne_nil x xs)]
  exact Option.some_ne_none _

theorem numericStep_ne_numIndexOutOfRange (pos : Nat) {c : Char} (rest : List Char)
    (hc : isDigit c = true ∨ c = '-') :
    numericStep pos (c :: rest) ≠ .error .numIndexOutOfRange := by
  intro h
  by_cases hm : c = '-'
  · subst hm
    cases rest with
    | nil => simp [numericStep] at h
    | cons d r =>
      have e : '-' :: d :: r = ['-'] ++ d :: r := rfl
      rw [e, numericStep_sign pos (Or.inr rfl) d r (fun hnil => absurd hnil (by simp))] at h
      by_cases hdot : d = '.'
      · simp [hdot] at h
      · simp only [hdot, if_false] at h
        cases hr : numRun false (d :: r) with
        | error k => simp [hr] at h
        | ok p =>
          simp only [hr, List.singleton_append] at h
          cases hl : ('-' :: p.1).getLast? with
          | none => exact getLast?_cons_ne_none _ _ hl
          | some last =>
            simp only [hl] at h
            by_cases hlast : last = '.'
            · simp [hlast] at h
            · simp [hlast] at h
  · have hd : isDigit c = true := hc.resolve_right hm
    have e : c :: rest = [] ++ c :: rest := rfl
    rw [e, numericStep_sign pos (Or.inl rfl) c rest (fun _ => hm)] at h
    simp only [(digit_ne hd).1, if_false, numRun, hd, if_true] at h
    cases hr : numRun false rest with
    | error k => simp [hr] at h
    | ok p =>
      simp only [hr, List.nil_append] at h
      cases hl : (c :: p.1).getLast? with
      | none => exact getLast?_cons_ne_none _ _ hl
      | some last =>
        simp only [hl] at h
        by_cases hlast : last = '.'
        · simp [hlast] at h
        · simp [hlast] at h

theorem scanStep_ne_numIndexOutOfRange (pos : Nat) (suf : List Char) :
    scanStep pos suf ≠ .error .numIndexOutOfRange := by
  intro h
  cases suf with
  | nil => simp [scanStep] at h
  | cons c rest =>
    simp only [scanStep] at h
    cases hh : handlerOf c with
    | none => simp [hh] at h
    | some hd =>
      simp only [hh] at h
      cases hd with
      | WhitespaceHandler => simp [handlerStep] at h
      | IdentHandler => simp [handlerStep] at h
      | StringHandler =>
        simp only [handlerStep, stringStep] at h
        split_ifs at h
        · split at h <;> simp at h
        · simp at h
      | NumericHandler =>
        exact numericStep_ne_numIndexOutOfRange pos rest (handlerOf_numeric hh) h
      | SymbolHandler =>
        simp only [handlerStep, symbolStep] at h
        split_ifs at h; simp at h

theorem scanFrom_ne_numIndexOutOfRange (fuel : Nat) : ∀ (pos : Nat) (suf : List Char),
    scanFrom fuel pos suf ≠ .error .numIndexOutOfRange := by
  induction fuel with
  | zero => intro pos suf h; simp [scanFrom] at h
  | succ fuel ih =>
    intro pos suf h
    cases suf with
    | nil => simp [scanFrom] at h
    | cons c rest =>
      simp only [scanFrom] at h
      cases hstep : scanStep pos (c :: rest) with
      | error f =>
        simp only [hstep, Except.error.injEq] at h
        exact scanStep_ne_numIndexOutOfRange pos (c :: rest) (h ▸ hstep)
      | ok p =>
        simp only [hstep] at h
        cases hrec : scanFrom fuel (pos + p.1) ((c :: rest).drop p.1) with
        | error f =>
          simp only [hrec, Except.error.injEq] at h
          exact ih _ _ (h ▸ hrec)
        | ok ts1 => simp [hrec] at h

/-- The slice `num` is never empty when `NumericHandler.Handle` reads its last rune. -/
theorem Lex_ne_numIndexOutOfRange (opts : LexOptions) (script : List Char) :
    Lex opts script ≠ .error .numIndexOutOfRange := by
  rw [Lex_eq]
  intro h
  cases hs : scanFrom (script.length + 1) 0 script with
  | error f =>
    simp only [hs, Except.error.injEq] at h
    exact scanFrom_ne_numIndexOutOfRange _ 0 script (h ▸ hs)
  | ok ts => simp [hs] at h

/-! ## Malformed numeric literals -/

theorem numRun_second_dot (e : List Char) (hed : ∀ c ∈ e, isDigit c = true)
    (rest : List Char) :
    numRun false ('.' :: (e ++ '.' :: rest)) = .error (e.length + 2) := by
  have h1 : numRun true ('.' :: rest) = .error 1 := by simp [numRun]
  have h2 := numRun_digits_append e hed true ('.' :: rest)
  rw [h1] at h2
  simp only [numRun, if_true, Bool.false_eq_true, if_false, h2]
  have : 1 + e.length + 1 = e.length + 2 := by omega
  rw [this]

theorem numRun_trailing_dot (rest : List Char)
    (hrest : ∀ x, rest.head? = some x → isDigit x = false ∧ x ≠ '.') :
    numRun false ('.' :: rest) = .ok (['.'], true) := by
  have h1 : numRun true rest = .ok ([], true) := by
    cases rest with
    | nil => rfl
    | cons x xs =>
      obtain ⟨hx1, hx2⟩ := hrest x rfl
      simp [numRun, hx1, hx2]
  simp [numRun, h1]

/-- C11: for a sign `m`, empty or `-`, a non-empty string `d` of digits, a
string `e` of digits that may be empty and any runes `rest`, `Lex` on
`m ++ d ++ "." ++ e ++ "." ++ rest` returns no stream and the error "numeric
include multiple dots: at=k" with `k = |m| + |d| + |e| + 2`, the offset just
after the second dot. -/
theorem Lex_numeric_multiple_dots (opts : LexOptions) (m d e rest : List Char)
    (hm : m = [] ∨ m = ['-'])
    (hd : d ≠ []) (hdd : ∀ c ∈ d, isDigit c = true) (hed : ∀ c ∈ e, isDigit c = true) :
    Lex opts (m ++ d ++ ['.'] ++ e ++ ['.'] ++ rest) =
      .error (.error (.numericIncludeMultipleDots (m.length + d.length + e.length + 2))) := by
  cases d with
  | nil => exact absurd rfl hd
  | cons c cs =>
    have hc : isDigit c = true := hdd c (List.mem_cons_self _ _)
    have hshape : m ++ c :: cs ++ ['.'] ++ e ++ ['.'] ++ rest =
        m ++ c :: (cs ++ '.' :: (e ++ '.' :: rest)) := by simp
    have hrun : numRun false (c :: (cs ++ '.' :: (e ++ '.' :: rest))) =
        .error (e.length + 2 + (c :: cs).length) := by
      have h1 := numRun_digits_append (c :: cs) hdd false ('.' :: (e ++ '.' :: rest))
      rw [numRun_second_dot e hed rest] at h1
      simpa using h1
    have hstep : scanStep 0 (m ++ c :: (cs ++ '.' :: (e ++ '.' :: rest))) =
        .error (.error (.numericIncludeMultipleDots
          (m.length + (c :: cs).length + e.length + 2))) := by
      rw [scanStep_numeric 0 hm hc,
        numericStep_sign 0 hm c _ (fun _ => (digit_ne hc).2)]
      simp only [(digit_ne hc).1, if_false, hrun]
      have : 0 + m.length + (e.length + 2 + (c :: cs).length) =
          m.length + (c :: cs).length + e.length + 2 := by omega
      rw [this]
    rw [hshape]
    exact Lex_fails_first (by simp) hstep

theorem Lex_numeric_multiple_dots_witness :
    (([] : List Char) = [] ∨ ([] : List Char) = ['-']) ∧
      Lex ⟨false⟩ ([] ++ ['1'] ++ ['.'] ++ ['2'] ++ ['.'] ++ ['3']) =
        .error (.error (.numericIncludeMultipleDots
          (([] : List Char).length + ['1'].length + ['2'].length + 2))) :=
  ⟨by decide,
    Lex_numeric_multiple_dots ⟨false⟩ [] ['1'] ['2'] ['3'] (by decide) (by decide)
      (by decide) (by decide)⟩

/-- C12: for a sign `m`, empty or `-`, a non-empty string `d` of digits and
runes `rest` that are empty or start with a rune that is neither a digit nor a
dot, `Lex` on `m ++ d ++ "." ++ rest` returns no stream and the error "numeric
ended with dot: at=k" with `k = |m| + |d| + 1`, the offset just past the dot. -/
theorem Lex_numeric_ends_with_dot (opts : LexOptions) (m d rest : List Char)
    (hm : m = [] ∨ m = ['-'])
    (hd : d ≠ []) (hdd : ∀ c ∈ d, isDigit c = true)
    (hrest : ∀ x, rest.head? = some x → isDigit x = false ∧ x ≠ '.') :
    Lex opts (m ++ d ++ ['.'] ++ rest) =
      .error (.error (.numericEndedWithDot (m.length + d.length + 1))) := by
  cases d with
  | nil => exact absurd rfl hd
  | cons c cs =>
    have hc : isDigit c = true := hdd c (List.mem_cons_self _ _)
    have hshape : m ++ c :: cs ++ ['.'] ++ rest = m ++ c :: (cs ++ '.' :: rest) := by simp
    have hrun : numRun false (c :: (cs ++ '.' :: rest)) = .ok (c :: cs ++ ['.'], true) := by
      have h1 := numRun_digits_append (c :: cs) hdd false ('.' :: rest)
      rw [numRun_trailing_dot rest hrest] at h1
      simpa using h1
    have hlast : (m ++ (c :: cs ++ ['.'])).getLast? = some '.' := by
      rw [← List.append_assoc, List.getLast?_concat]
    have hstep : scanStep 0 (m ++ c :: (cs ++ '.' :: rest)) =
        .error (.error (.numericEndedWithDot (m.length + (c :: cs).length + 1))) := by
      rw [scanStep_numeric 0 hm hc,
        numericStep_sign 0 hm c _ (fun _ => (digit_ne hc).2)]
      simp only [(digit_ne hc).1, if_false, hrun, hlast, if_true]
      have : 0 + m.length + (c :: cs ++ ['.']).length = m.length + (c :: cs).length + 1 := by
        simp only [List.length_append, List.length_cons, List.length_nil]
        omega
      rw [this]
    rw [hshape]
    exact Lex_fails_first (by simp) hstep

theorem Lex_numeric_ends_with_dot_witness :
    ((['-'] : List Char) = [] ∨ (['-'] : List Char) = ['-']) ∧
      Lex ⟨true⟩ (['-'] ++ ['1', '2', '3'] ++ ['.'] ++ [' ', '4']) =
        .error (.error (.numericEndedWithDot
          ((['-'] : List Char).length + ['1', '2', '3'].length + 1))) :=
  ⟨by decide,
    Lex_numeric_ends_with_dot ⟨true⟩ ['-'] ['1', '2', '3'] [' ', '4'] (by decide) (by decide)
      (by decide) (by decide)⟩

/-- C13: for every sequence `rest` of runes, `Lex` on `-.` followed by `rest`
returns no stream and the error "numeric started with dot: at=2": the dot that
follows the sign is consumed before the handler fails. -/
theorem Lex_numeric_starts_with_dot (opts : LexOptions) (rest : List Char) :
    Lex opts ('-' :: '.' :: rest) = .error (.error (.numericStartedWithDot 2)) := by
  have hstep : scanStep 0 ('-' :: '.' :: rest) =
      .error (.error (.numericStartedWithDot 2)) := by
    have e : '-' :: '.' :: rest = ['-'] ++ '.' :: rest := rfl
    have hs : scanStep 0 ('-' :: '.' :: rest) = numericStep 0 ('-' :: '.' :: rest) := by
      simp [scanStep, handlerOf_minus, handlerStep]
    rw [hs, e, numericStep_sign 0 (Or.inr rfl) '.' rest (fun h => absurd h (by simp))]
    simp
  exact Lex_fails_first (by simp) hstep

/-! ## Runes of no handler, and scripts of whitespace -/

theorem handlerOf_isWhitespace {c : Char} (h : isWhitespace c = true) :
    handlerOf c = some .WhitespaceHandler := by
  simp only [isWhitespace, decide_eq_true_eq] at h
  simp only [handlerOf, h, if_true]

theorem handlerOf_none {c : Char} (hw : isWhitespace c = false) (hq : c ≠ dq)
    (hd : isDigit c = false) (hm : c ≠ '-') (hs : c ≠ lcb ∧ c ≠ rcb ∧ c ≠ '=')
    (hi : isIdentRune c = false) : handlerOf c = none := by
  simp only [isWhitespace, decide_eq_false_iff_not] at hw
  simp only [isDigit, decide_eq_false_iff_not, List.mem_cons, List.mem_singleton,
    List.not_mem_nil, or_false] at hd
  simp only [isIdentRune, Bool.or_eq_false_iff, decide_eq_false_iff_not] at hi
  have h3 : c ∉ ['0', '1', '2', '3', '4', '5', '6', '7', '8', '9', '-'] := by
    simp only [List.mem_cons, List.mem_singleton, List.not_mem_nil, or_false]
    tauto
  have h4 : c ∉ [lcb, rcb, '='] := by
    simp only [List.mem_cons, List.mem_singleton, List.not_mem_nil, or_false]
    tauto
  have h2 : c ∉ [dq] := by simpa using hq
  have h6 : c ∉ ['_'] := by simpa using hi.2
  simp only [handlerOf, hw, h2, h3, h4, hi.1, h6, if_false, Bool.false_eq_true]

theorem takeWhile_append_stop (p : Char → Bool) (c : Char) (rest : List Char)
    (hc : p c = false) : ∀ w : List Char,
    (w ++ c :: rest).takeWhile p = w.takeWhile p := by
  intro w
  induction w with
  | nil => simp [List.takeWhile_cons, hc]
  | cons x xs ih =>
    by_cases hx : p x = true
    · simp [List.takeWhile_cons, hx, ih]
    · simp [List.takeWhile_cons, hx]

theorem scanFrom_unrecognized (c : Char) (rest : List Char) (hc : handlerOf c = none)
    (hcw : isWhitespace c = false) : ∀ (n : Nat) (w : List Char), w.length ≤ n →
    (∀ x ∈ w, isWhitespace x = true ∨ x = lcb ∨ x = rcb ∨ x = '=') →
    ∀ (fuel pos : Nat), w.length < fuel →
    scanFrom fuel pos (w ++ c :: rest) = .error (.error (.unexpectedCharAt (pos + w.length))) := by
  intro n
  induction n with
  | zero =>
    intro w hn _ fuel pos hf
    have hw : w = [] := List.length_eq_zero.mp (Nat.le_zero.mp hn)
    subst hw
    cases fuel with
    | zero => simp at hf
    | succ fuel => simp [scanFrom, scanStep, hc]
  | succ n ih =>
    intro w hn hw fuel pos hf
    cases w with
    | nil =>
      cases fuel with
      | zero => simp at hf
      | succ fuel => simp [scanFrom, scanStep, hc]
    | cons x xs =>
      cases fuel with
      | zero => simp at hf
      | succ fuel =>
        have hxs : ∀ y ∈ xs, isWhitespace y = true ∨ y = lcb ∨ y = rcb ∨ y = '=' :=
          fun y hy => hw y (List.mem_cons_of_mem _ hy)
        by_cases hxw : isWhitespace x = true
        · -- a run of whitespace, wholly inside `w`
          have htw : ((x :: xs) ++ c :: rest).takeWhile isWhitespace =
              (x :: xs).takeWhile isWhitespace :=
            takeWhile_append_stop isWhitespace c rest hcw (x :: xs)
          have hk1 : 0 < ((x :: xs).takeWhile isWhitespace).length := by
            simp [List.takeWhile_cons, hxw]
          have hk2 := length_takeWhile_le isWhitespace (x :: xs)
          generalize hk : ((x :: xs).takeWhile isWhitespace).length = k at hk1 hk2
          have hstep : scanStep pos ((x :: xs) ++ c :: rest) =
              .ok (k, ⟨⟨pos, pos + k⟩, .Whitespace, (x :: xs).takeWhile isWhitespace⟩) := by
            simp only [List.cons_append, scanStep, handlerOf_isWhitespace hxw, handlerStep,
              whitespaceStep]
            rw [← List.cons_append, htw, hk]
          have hdrop : ((x :: xs) ++ c :: rest).drop k = (x :: xs).drop k ++ c :: rest :=
            List.drop_append_of_le_length hk2
          have hlen : ((x :: xs).drop k).length = (x :: xs).length - k := List.length_drop _ _
          have hrec := ih ((x :: xs).drop k) (by rw [hlen]; simp at hn ⊢; omega)
            (fun y hy => hw y (List.mem_of_mem_drop hy)) fuel (pos + k)
            (by rw [hlen]; simp at hf ⊢; omega)
          have hfin : pos + k + ((x :: xs).drop k).length = pos + (x :: xs).length := by
            rw [hlen]; omega
          rw [hfin] at hrec
          have hgoal : scanFrom (fuel + 1) pos ((x :: xs) ++ c :: rest) =
              match scanStep pos ((x :: xs) ++ c :: rest) with
              | .error f => .error f
              | .ok (k, t) =>
                match scanFrom fuel (pos + k) (((x :: xs) ++ c :: rest).drop k) with
                | .error f => .error f
                | .ok ts => .ok (t :: ts) := rfl
          rw [hgoal, hstep]
          simp only [hdrop, hrec]
        · have hsym : x = lcb ∨ x = rcb ∨ x = '=' :=
            (hw x (List.mem_cons_self _ _)).resolve_left hxw
          have hrec := ih xs (by simpa using hn) hxs fuel (pos + 1) (by simpa using hf)
          have hfin : pos + 1 + xs.length = pos + (x :: xs).length := by
            simp only [List.length_cons]; omega
          rw [hfin] at hrec
          simp only [List.cons_append, scanFrom, scanStep_symbol pos hsym, List.drop_succ_cons,
            List.drop_zero, List.append_eq, hrec]

/-- C14: for a prefix `w`, possibly empty, of whitespace runes and the symbols
`{`, `}`, `=`, a rune `c` that belongs to the class of no handler, and any runes
`rest`, `Lex` on `w ++ [c] ++ rest` returns no stream and the error "unexpected
char: at=k" with `k = |w|`, the offset of `c`. -/
theorem Lex_unrecognized_character (opts : LexOptions) (w rest : List Char) (c : Char)
    (hw : ∀ x ∈ w, isWhitespace x = true ∨ x = lcb ∨ x = rcb ∨ x = '=')
    (hcw : isWhitespace c = false) (hcq : c ≠ dq) (hcd : isDigit c = false) (hcm : c ≠ '-')
    (hcs : c ≠ lcb ∧ c ≠ rcb ∧ c ≠ '=') (hci : isIdentRune c = false) :
    Lex opts (w ++ [c] ++ rest) = .error (.error (.unexpectedCharAt w.length)) := by
  have hc := handlerOf_none hcw hcq hcd hcm hcs hci
  have hshape : w ++ [c] ++ rest = w ++ c :: rest := by simp
  have h := scanFrom_unrecognized c rest hc hcw w.length w (Nat.le_refl _) hw
    ((w ++ c :: rest).length + 1) 0 (by simp; omega)
  rw [hshape, Lex_eq, h, Nat.zero_add]

theorem Lex_unrecognized_character_witness :
    (∀ x ∈ [' ', lcb, '\n', '\t'], isWhitespace x = true ∨ x = lcb ∨ x = rcb ∨ x = '=') ∧
      Lex ⟨false⟩ ([' ', lcb, '\n', '\t'] ++ ['+'] ++ ['1']) =
        .error (.error (.unexpectedCharAt [' ', lcb, '\n', '\t'].length)) :=
  ⟨by decide,
    Lex_unrecognized_character ⟨false⟩ [' ', lcb, '\n', '\t'] ['1'] '+' (by decide) (by decide)
      (by decide) (by decide) (by decide) (by decide) (by decide)⟩

/-- C15: on a script of `n` runes, all of them space, newline, carriage return or
tab (`n` may be `0`), `Lex` with `Clean = true` gives the stream of the one token
`Eof` at `[n, n)`; and on the empty script `Lex` gives the one token `Eof` at
`[0, 0)` under either value of `Clean`. -/
theorem Lex_whitespace_only (script : List Char)
    (hs : ∀ c ∈ script, isWhitespace c = true) :
    Lex ⟨true⟩ script = .ok [⟨⟨script.length, script.length⟩, .Eof, []⟩] ∧
      ∀ opts : LexOptions, Lex opts [] = .ok [⟨⟨0, 0⟩, .Eof, []⟩] := by
  refine ⟨?_, fun opts => rfl⟩
  cases script with
  | nil => rfl
  | cons c cs =>
    have hc := hs c (List.mem_cons_self _ _)
    have ht : (c :: cs).takeWhile isWhitespace = c :: cs := List.takeWhile_eq_self_iff.mpr hs
    have hstep : scanStep 0 (c :: cs) =
        .ok ((c :: cs).length, ⟨⟨0, 0 + (c :: cs).length⟩, .Whitespace, c :: cs⟩) := by
      simp only [scanStep, handlerOf_isWhitespace hc, handlerStep, whitespaceStep, ht]
    rw [Lex_eq]
    simp only [scanFrom, hstep, List.drop_length, List.length_cons, Nat.zero_add]
    simp [scanFrom, kept]

theorem Lex_whitespace_only_witness :
    (∀ c ∈ [' ', '\n', '\r', '\t', ' '], isWhitespace c = true) ∧
      (Lex ⟨true⟩ [' ', '\n', '\r', '\t', ' '] =
          .ok [⟨⟨[' ', '\n', '\r', '\t', ' '].length, [' ', '\n', '\r', '\t', ' '].length⟩,
            .Eof, []⟩] ∧
        ∀ opts : LexOptions, Lex opts [] = .ok [⟨⟨0, 0⟩, .Eof, []⟩]) :=
  ⟨by decide, Lex_whitespace_only [' ', '\n', '\r', '\t', ' '] (by decide)⟩

/-! ## The defensive branches -/

theorem handlerOf_string {c : Char} (h : handlerOf c = some .StringHandler) : c = dq := by
  by_cases h2 : c ∈ [dq]
  · simpa using h2
  · exfalso
    unfold handlerOf at h
    simp only [h2, if_false] at h
    split_ifs at h <;> simp at h

theorem handlerOf_symbolHandler {c : Char} (h : handlerOf c = some .SymbolHandler) :
    c = lcb ∨ c = rcb ∨ c = '=' := by
  by_cases h4 : c ∈ [lcb, rcb, '=']
  · simpa using h4
  · exfalso
    unfold handlerOf at h
    simp only [h4, if_false] at h
    split_ifs at h <;> simp at h

theorem numericStep_error_reachable {pos : Nat} {suf : List Char} {e : LexError}
    (h : numericStep pos suf = .error (.error e)) : e.reachable = true := by
  cases suf with
  | nil => simp [numericStep] at h
  | cons c rest =>
    simp only [numericStep] at h
    generalize (if c = '-' then rest else c :: rest) = s1 at h
    generalize (if c = '-' then [c] else []) = sign at h
    cases s1 with
    | nil => simp at h
    | cons d r1 =>
      simp only [] at h
      by_cases hd : d = '.'
      · simp only [hd, if_true, Except.error.injEq, Fault.error.injEq] at h
        rw [← h]; rfl
      · simp only [hd, if_false] at h
        cases hr : numRun false (d :: r1) with
        | error k =>
          simp only [hr, Except.error.injEq, Fault.error.injEq] at h
          rw [← h]; rfl
        | ok p =>
          simp only [hr] at h
          cases hl : (sign ++ p.1).getLast? with
          | none => simp [hl] at h
          | some last =>
            simp only [hl] at h
            by_cases hlast : last = '.'
            · simp only [hlast, if_true, Except.error.injEq, Fault.error.injEq] at h
              rw [← h]; rfl
            · simp [hlast] at h

theorem scanStep_error_reachable {pos : Nat} {suf : List Char} {e : LexError}
    (h : scanStep pos suf = .error (.error e)) : e.reachable = true := by
  cases suf with
  | nil => simp [scanStep] at h
  | cons c rest =>
    simp only [scanStep] at h
    cases hh : handlerOf c with
    | none =>
      simp only [hh, Except.error.injEq, Fault.error.injEq] at h
      rw [← h]; rfl
    | some hd =>
      simp only [hh] at h
      cases hd with
      | WhitespaceHandler => simp [handlerStep] at h
      | IdentHandler => simp [handlerStep] at h
      | StringHandler =>
        have hq := handlerOf_string hh
        simp only [handlerStep, stringStep, hq, if_true] at h
        cases hdw : rest.dropWhile (fun x => decide (x ≠ dq)) with
        | nil =>
          simp only [hdw, Except.error.injEq, Fault.error.injEq] at h
          rw [← h]; rfl
        | cons y ys => simp only [hdw, reduceCtorEq] at h
      | NumericHandler =>
        simp only [handlerStep] at h
        exact numericStep_error_reachable h
      | SymbolHandler =>
        have hs := handlerOf_symbolHandler hh
        have hsym := scanStep_symbol pos hs rest
        simp only [scanStep, hh] at hsym
        rw [hsym] at h
        simp at h

theorem scanFrom_error_reachable (fuel : Nat) : ∀ (pos : Nat) (suf : List Char)
    (e : LexError), scanFrom fuel pos suf = .error (.error e) → e.reachable = true := by
  induction fuel with
  | zero => intro pos suf e h; simp [scanFrom] at h
  | succ fuel ih =>
    intro pos suf e h
    cases suf with
    | nil => simp [scanFrom] at h
    | cons c rest =>
      simp only [scanFrom] at h
      cases hstep : scanStep pos (c :: rest) with
      | error f =>
        simp only [hstep, Except.error.injEq] at h
        exact scanStep_error_reachable (h ▸ hstep)
      | ok p =>
        simp only [hstep] at h
        cases hrec : scanFrom fuel (pos + p.1) ((c :: rest).drop p.1) with
        | error f =>
          simp only [hrec, Except.error.injEq] at h
          exact ih _ _ e (h ▸ hrec)
        | ok ts1 => simp [hrec] at h

/-- C16: the defensive branches are not reached through `Lex`: whenever `Lex`
returns an error value, for any script and either value of `Clean`, it is not
"unexpected symbol: at=..." of `SymbolHandler` nor "unexpected char: want=...,
got=..." of `expect`; it is one of "unexpected char: at=k", "string without
closing dq: at=k", "numeric started with dot: at=k", "numeric include multiple
dots: at=k" and "numeric ended with dot: at=k". -/
theorem Lex_error_taxonomy (opts : LexOptions) (script : List Char) (e : LexError)
    (h : Lex opts script = .error (.error e)) :
    (∀ k, e ≠ .unexpectedSymbol k) ∧ (∀ want got, e ≠ .unexpectedCharWantGot want got) ∧
      ((∃ k, e = .unexpectedCharAt k) ∨ (∃ k, e = .stringWithoutClosingDq k) ∨
        (∃ k, e = .numericStartedWithDot k) ∨ (∃ k, e = .numericIncludeMultipleDots k) ∨
        (∃ k, e = .numericEndedWithDot k)) := by
  have hr : e.reachable = true := by
    rw [Lex_eq] at h
    cases hs : scanFrom (script.length + 1) 0 script with
    | error f =>
      simp only [hs, Except.error.injEq] at h
      exact scanFrom_error_reachable _ _ _ _ (h ▸ hs)
    | ok ts => simp [hs] at h
  cases e with
  | unexpectedCharAt k => exact ⟨by simp, by simp, Or.inl ⟨k, rfl⟩⟩
  | stringWithoutClosingDq k => exact ⟨by simp, by simp, Or.inr (Or.inl ⟨k, rfl⟩)⟩
  | numericStartedWithDot k => exact ⟨by simp, by simp, Or.inr (Or.inr (Or.inl ⟨k, rfl⟩))⟩
  | numericIncludeMultipleDots k =>
    exact ⟨by simp, by simp, Or.inr (Or.inr (Or.inr (Or.inl ⟨k, rfl⟩)))⟩
  | numericEndedWithDot k =>
    exact ⟨by simp, by simp, Or.inr (Or.inr (Or.inr (Or.inr ⟨k, rfl⟩)))⟩
  | unexpectedSymbol k => simp [LexError.reachable] at hr
  | unexpectedCharWantGot want got => simp [LexError.reachable] at hr

theorem Lex_error_taxonomy_witness :
    Lex ⟨false⟩ [lcb, ' ', '1', '.', rcb] = .error (.error (.numericEndedWithDot 4)) ∧
      ((∀ k, LexError.numericEndedWithDot 4 ≠ .unexpectedSymbol k) ∧
        (∀ want got, LexError.numericEndedWithDot 4 ≠ .unexpectedCharWantGot want got) ∧
        ((∃ k, LexError.numericEndedWithDot 4 = .unexpectedCharAt k) ∨
          (∃ k, LexError.numericEndedWithDot 4 = .stringWithoutClosingDq k) ∨
          (∃ k, LexError.numericEndedWithDot 4 = .numericStartedWithDot k) ∨
          (∃ k, LexError.numericEndedWithDot 4 = .numericIncludeMultipleDots k) ∨
          (∃ k, LexError.numericEndedWithDot 4 = .numericEndedWithDot k))) :=
  ⟨by decide,
    Lex_error_taxonomy ⟨false⟩ [lcb, ' ', '1', '.', rcb] (.numericEndedWithDot 4) (by decide)⟩

/-! ## Progress of the dispatch loop -/

theorem lexLoop_ne_outOfFuel (opts : LexOptions) (fuel : Nat) (l : Lexer)
    (hf : l.chars.length - l.pos < fuel) : lexLoop opts fuel l ≠ .error .outOfFuel := by
  intro h
  have heq := lexLoop_eq opts fuel l
  rw [h] at heq
  have hlen : (l.chars.drop l.pos).length < fuel := by
    rw [List.length_drop]; exact hf
  cases hs : scanFrom fuel l.pos (l.chars.drop l.pos) with
  | error f =>
    simp only [hs, Except.error.injEq] at heq
    exact scanFrom_ne_outOfFuel fuel _ _ hlen (heq ▸ hs)
  | ok ts => simp [hs] at heq

theorem Handle_progress {opts : LexOptions} {l l' : Lexer} {h : TokenHandler}
    (hpos : l.pos < l.chars.length) (hh : l.getHandler = .ok (some h))
    (hok : h.Handle l opts = .ok l') :
    l.pos < l'.pos ∧ l'.pos ≤ l.chars.length ∧ l'.chars = l.chars ∧
      ((h = .WhitespaceHandler ∧ opts.Clean = true ∧ l'.toks = l.toks) ∨
        (¬ (h = .WhitespaceHandler ∧ opts.Clean = true) ∧ ∃ t, l'.toks = l.toks ++ [t])) := by
  cases hs : l.chars.drop l.pos with
  | nil =>
    have := isEof_of_nil hs
    simp only [Lexer.isEof, decide_eq_true_eq] at this
    omega
  | cons c rest =>
    have hc := charAt_of_cons hs
    rw [getHandler_of_charAt hc] at hh
    simp only [Except.ok.injEq] at hh
    have hstep : scanStep l.pos (c :: rest) = handlerStep h l.pos (c :: rest) := by
      simp only [scanStep, hh]
    rw [Handle_eq, hs] at hok
    cases hhs : handlerStep h l.pos (c :: rest) with
    | error f => simp [hhs] at hok
    | ok p =>
      obtain ⟨k, t⟩ := p
      rw [hhs] at hstep
      simp only [hhs, Except.ok.injEq] at hok
      obtain ⟨hk0, hk, -, -, -⟩ := scanStep_ok hstep
      have hkept := handlerStep_kept opts hhs
      have hlen : (c :: rest).length = l.chars.length - l.pos := by
        rw [← hs, List.length_drop]
      by_cases hwc : h = .WhitespaceHandler ∧ opts.Clean = true
      · have hk' : kept opts t = false := by
          rw [hkept]; simp [hwc.1, hwc.2]
        simp only [hk', Bool.false_eq_true, if_false] at hok
        subst hok
        refine ⟨by simp; omega, by simp; omega, rfl, Or.inl ⟨hwc.1, hwc.2, rfl⟩⟩
      · have hk' : kept opts t = true := by
          rw [hkept]
          by_cases h1 : h = .WhitespaceHandler
          · have : opts.Clean = false := by
              cases hcl : opts.Clean with
              | false => rfl
              | true => exact absurd ⟨h1, hcl⟩ hwc
            simp [this]
          · simp [h1]
        simp only [hk', if_true] at hok
        subst hok
        refine ⟨by simp; omega, by simp; omega, rfl, Or.inr ⟨hwc, t, rfl⟩⟩

/-- C17: in a state whose cursor `i` is before the end of the input, for the
handler that `getHandler` selects, a call of `Handle` that returns without error
leaves the cursor strictly after `i` and at most at `n`, and links no token when
the handler is `WhitespaceHandler` under `Clean = true` and exactly one token
otherwise; so the loop of `Lex`, started in any state, ends within `n - i` calls
of a handler, and `Lex` itself within `n` calls: a budget of one step more than
that is never used up. -/
theorem Lex_progress (opts : LexOptions) :
    (∀ (l l' : Lexer) (h : TokenHandler), l.pos < l.chars.length →
        l.getHandler = .ok (some h) → h.Handle l opts = .ok l' →
        l.pos < l'.pos ∧ l'.pos ≤ l.chars.length ∧ l'.chars = l.chars ∧
          ((h = .WhitespaceHandler ∧ opts.Clean = true ∧ l'.toks = l.toks) ∨
            (¬ (h = .WhitespaceHandler ∧ opts.Clean = true) ∧
              ∃ t, l'.toks = l.toks ++ [t]))) ∧
      (∀ l : Lexer, lexLoop opts (l.chars.length - l.pos + 1) l ≠ .error .outOfFuel) ∧
      (∀ script : List Char, Lex opts script ≠ .error .outOfFuel) :=
  ⟨fun _ _ _ hpos hh hok => Handle_progress hpos hh hok,
    fun l => lexLoop_ne_outOfFuel opts _ l (Nat.lt_succ_self _),
    fun script => Lex_ne_outOfFuel opts script⟩

theorem Lex_progress_witness :
    ((⟨[' ', '\t', 'a'], 0, []⟩ : Lexer).pos < (⟨[' ', '\t', 'a'], 0, []⟩ : Lexer).chars.length ∧
        (⟨[' ', '\t', 'a'], 0, []⟩ : Lexer).getHandler = .ok (some .WhitespaceHandler) ∧
        TokenHandler.Handle .WhitespaceHandler ⟨[' ', '\t', 'a'], 0, []⟩ ⟨true⟩ =
          .ok ⟨[' ', '\t', 'a'], 2, []⟩) ∧
      ((⟨[' ', '\t', 'a'], 0, []⟩ : Lexer).pos < (⟨[' ', '\t', 'a'], 2, []⟩ : Lexer).pos ∧
        (⟨[' ', '\t', 'a'], 2, []⟩ : Lexer).pos ≤ (⟨[' ', '\t', 'a'], 0, []⟩ : Lexer).chars.length ∧
        (⟨[' ', '\t', 'a'], 2, []⟩ : Lexer).chars = (⟨[' ', '\t', 'a'], 0, []⟩ : Lexer).chars ∧
        ((TokenHandler.WhitespaceHandler = .WhitespaceHandler ∧
            (⟨true⟩ : LexOptions).Clean = true ∧
            (⟨[' ', '\t', 'a'], 2, []⟩ : Lexer).toks = (⟨[' ', '\t', 'a'], 0, []⟩ : Lexer).toks) ∨
          (¬ (TokenHandler.WhitespaceHandler = .WhitespaceHandler ∧
              (⟨true⟩ : LexOptions).Clean = true) ∧
            ∃ t, (⟨[' ', '\t', 'a'], 2, []⟩ : Lexer).toks =
              (⟨[' ', '\t', 'a'], 0, []⟩ : Lexer).toks ++ [t]))) :=
  ⟨⟨by decide, by decide, by decide⟩,
    (Lex_progress ⟨true⟩).1 ⟨[' ', '\t', 'a'], 0, []⟩ ⟨[' ', '\t', 'a'], 2, []⟩ .WhitespaceHandler
      (by decide) (by decide) (by decide)⟩

/-! ## The token of a round, by kind -/

theorem stringStep_ok {pos : Nat} {suf : List Char} {k : Nat} {t : Token}
    (h : stringStep pos suf = .ok (k, t)) : t.Kind = .String := by
  unfold stringStep at h
  cases suf with
  | nil => simp at h
  | cons c rest =>
    simp only [] at h
    by_cases hq : c = dq
    · simp only [hq, if_true] at h
      cases hdw : rest.dropWhile (fun x => decide (x ≠ dq)) with
      | nil => simp only [hdw, reduceCtorEq] at h
      | cons y ys =>
        simp only [hdw, Except.ok.injEq, Prod.mk.injEq] at h
        rw [← h.2]
    · simp [hq] at h

theorem symbolStep_ok {pos : Nat} {suf : List Char} {k : Nat} {t : Token}
    (h : symbolStep pos suf = .ok (k, t)) :
    t.Kind = .Lcb ∨ t.Kind = .Rcb ∨ t.Kind = .Assign := by
  unfold symbolStep at h
  cases suf with
  | nil => simp at h
  | cons c rest =>
    simp only [] at h
    split_ifs at h
    · simp only [Except.ok.injEq, Prod.mk.injEq] at h
      rw [← h.2]; simp
    · simp only [Except.ok.injEq, Prod.mk.injEq] at h
      rw [← h.2]; simp
    · simp only [Except.ok.injEq, Prod.mk.injEq] at h
      rw [← h.2]; simp

theorem scanStep_whitespace {pos : Nat} {suf : List Char} {k : Nat} {t : Token}
    (h : scanStep pos suf = .ok (k, t)) (hk : t.Kind = .Whitespace) :
    t.Raw = suf.takeWhile isWhitespace ∧ k = (suf.takeWhile isWhitespace).length ∧
      suf.takeWhile isWhitespace ≠ [] := by
  cases suf with
  | nil => simp [scanStep] at h
  | cons c rest =>
    simp only [scanStep] at h
    cases hh : handlerOf c with
    | none => simp [hh] at h
    | some hd =>
      simp only [hh] at h
      cases hd with
      | WhitespaceHandler =>
        have hw := handlerOf_whitespace hh
        simp only [handlerStep, whitespaceStep, Except.ok.injEq, Prod.mk.injEq] at h
        refine ⟨by rw [← h.2], h.1.symm, ?_⟩
        simp [List.takeWhile_cons, hw]
      | IdentHandler =>
        simp only [handlerStep, identStep, Except.ok.injEq, Prod.mk.injEq] at h
        rw [← h.2] at hk
        simp at hk
      | StringHandler =>
        simp only [handlerStep] at h
        have := stringStep_ok h
        rw [this] at hk
        simp at hk
      | NumericHandler =>
        simp only [handlerStep] at h
        rcases numericStep_kind h with h1 | h1 <;> rw [h1] at hk <;> simp at hk
      | SymbolHandler =>
        simp only [handlerStep] at h
        rcases symbolStep_ok h with h1 | h1 | h1 <;> rw [h1] at hk <;> simp at hk

theorem scanStep_ident {pos : Nat} {suf : List Char} {k : Nat} {t : Token}
    (h : scanStep pos suf = .ok (k, t)) (hk : t.Kind = .Ident) :
    t.Raw = suf.takeWhile isIdentRune ∧ k = (suf.takeWhile isIdentRune).length ∧
      suf.takeWhile isIdentRune ≠ [] := by
  cases suf with
  | nil => simp [scanStep] at h
  | cons c rest =>
    simp only [scanStep] at h
    cases hh : handlerOf c with
    | none => simp [hh] at h
    | some hd =>
      simp only [hh] at h
      cases hd with
      | IdentHandler =>
        have hw := handlerOf_ident hh
        simp only [handlerStep, identStep, Except.ok.injEq, Prod.mk.injEq] at h
        refine ⟨by rw [← h.2], h.1.symm, ?_⟩
        simp [List.takeWhile_cons, hw]
      | WhitespaceHandler =>
        simp only [handlerStep, whitespaceStep, Except.ok.injEq, Prod.mk.injEq] at h
        rw [← h.2] at hk
        simp at hk
      | StringHandler =>
        simp only [handlerStep] at h
        have := stringStep_ok h
        rw [this] at hk
        simp at hk
      | NumericHandler =>
        simp only [handlerStep] at h
        rcases numericStep_kind h with h1 | h1 <;> rw [h1] at hk <;> simp at hk
      | SymbolHandler =>
        simp only [handlerStep] at h
        rcases symbolStep_ok h with h1 | h1 | h1 <;> rw [h1] at hk <;> simp at hk

theorem takeWhile_head_true (p : Char → Bool) (xs : List Char) {c : Char}
    (h : (xs.takeWhile p).head? = some c) : xs.head? = some c ∧ p c = true := by
  cases xs with
  | nil => simp at h
  | cons x rest =>
    by_cases hx : p x = true
    · simp only [List.takeWhile_cons, hx, if_true, List.head?_cons, Option.some.injEq] at h
      subst h
      exact ⟨rfl, hx⟩
    · simp [List.takeWhile_cons, hx] at h

theorem dropWhile_head?_false (p : Char → Bool) (xs : List Char) {c : Char}
    (h : (xs.dropWhile p).head? = some c) : p c = false := by
  cases hd : xs.dropWhile p with
  | nil => simp [hd] at h
  | cons y ys =>
    simp only [hd, List.head?_cons, Option.some.injEq] at h
    subst h
    exact dropWhile_head_false p xs hd

theorem Rounds_steps {pos : Nat} {suf : List Char} {body : List Token}
    (h : Rounds pos suf body) : ∀ script : List Char, suf = script.drop pos →
    ∀ t ∈ body, ∃ k, scanStep t.Pos.StartedAt (script.drop t.Pos.StartedAt) = .ok (k, t) := by
  induction h with
  | done pos => intro script _ t ht; simp at ht
  | @round pos suf k t ts hstep _ ih =>
    intro script hs x hx
    rcases List.mem_cons.mp hx with rfl | hx
    · refine ⟨k, ?_⟩
      rw [(scanStep_ok hstep).2.2.1]
      simpa [hs] using hstep
    · refine ih script ?_ x hx
      rw [hs, List.drop_drop, Nat.add_comm]

theorem Lex_ok_steps {opts : LexOptions} {script : List Char} {ts : List Token}
    (h : Lex opts script = .ok ts) : ∀ t ∈ ts, t.Kind ≠ .Eof →
    ∃ k, scanStep t.Pos.StartedAt (script.drop t.Pos.StartedAt) = .ok (k, t) := by
  obtain ⟨body, hr, hts⟩ := Lex_ok_rounds h
  intro t ht hk
  rw [hts] at ht
  rcases List.mem_append.mp ht with hb | he
  · exact Rounds_steps hr script (by simp) t (List.mem_of_mem_filter hb)
  · rw [List.mem_singleton.mp he] at hk
    exact absurd rfl hk

/-! ## Maximal runs -/

theorem identRune_not_digit {c : Char} (h : isIdentRune c = true) : isDigit c = false := by
  cases hd : isDigit c with
  | false => rfl
  | true =>
    have h1 := handlerOf_digit hd
    rw [handlerOf_identRune h] at h1
    simp at h1

theorem run_next_rune (p : Char → Bool) (script : List Char) (a k : Nat)
    (hk : k = ((script.drop a).takeWhile p).length) {c : Char}
    (hc : script[a + k]? = some c) : p c = false := by
  have h1 : ((script.drop a).dropWhile p).head? = some c := by
    rw [← drop_length_takeWhile, ← hk, List.drop_drop, List.head?_drop]
    exact hc
  exact dropWhile_head?_false p _ h1

theorem adjacent_rounds {pos pos2 : Nat} {suf : List Char} {k k2 : Nat} {t t2 : Token}
    (h1 : scanStep pos suf = .ok (k, t)) (h2 : scanStep pos2 (suf.drop k) = .ok (k2, t2)) :
    ¬ (t.Kind = .Whitespace ∧ t2.Kind = .Whitespace) ∧
      ¬ (t.Kind = .Ident ∧ t2.Kind = .Ident) := by
  constructor
  · rintro ⟨hw1, hw2⟩
    obtain ⟨-, hk, -⟩ := scanStep_whitespace h1 hw1
    obtain ⟨-, -, hne⟩ := scanStep_whitespace h2 hw2
    rw [hk, drop_length_takeWhile] at hne
    cases hrun : (suf.dropWhile isWhitespace).takeWhile isWhitespace with
    | nil => exact hne hrun
    | cons c cs =>
      have hh : ((suf.dropWhile isWhitespace).takeWhile isWhitespace).head? = some c := by
        rw [hrun]; rfl
      obtain ⟨hd, hp⟩ := takeWhile_head_true _ _ hh
      rw [dropWhile_head?_false _ _ hd] at hp
      exact Bool.false_ne_true hp
  · rintro ⟨hw1, hw2⟩
    obtain ⟨-, hk, -⟩ := scanStep_ident h1 hw1
    obtain ⟨-, -, hne⟩ := scanStep_ident h2 hw2
    rw [hk, drop_length_takeWhile] at hne
    cases hrun : (suf.dropWhile isIdentRune).takeWhile isIdentRune with
    | nil => exact hne hrun
    | cons c cs =>
      have hh : ((suf.dropWhile isIdentRune).takeWhile isIdentRune).head? = some c := by
        rw [hrun]; rfl
      obtain ⟨hd, hp⟩ := takeWhile_head_true _ _ hh
      rw [dropWhile_head?_false _ _ hd] at hp
      exact Bool.false_ne_true hp

theorem Rounds_head {pos : Nat} {suf : List Char} {t : Token} {ts : List Token}
    (h : Rounds pos suf (t :: ts)) : ∃ k, scanStep pos suf = .ok (k, t) := by
  cases h with
  | round hstep _ => exact ⟨_, hstep⟩

theorem Rounds_no_adjacent_runs {pos : Nat} {suf : List Char} {body : List Token}
    (h : Rounds pos suf body) (e : Nat) :
    List.Chain' (fun x y : Token => ¬ (x.Kind = .Whitespace ∧ y.Kind = .Whitespace) ∧
      ¬ (x.Kind = .Ident ∧ y.Kind = .Ident)) (body ++ [eofToken e]) := by
  induction h with
  | done pos => simp
  | @round pos suf k t ts hstep hr ih =>
    rw [List.cons_append, List.chain'_cons']
    refine ⟨?_, ih⟩
    intro y hy
    cases ts with
    | nil =>
      simp only [List.nil_append, List.head?_cons, Option.mem_def, Option.some.injEq] at hy
      rw [← hy]
      simp [eofToken]
    | cons t2 ts2 =>
      simp only [List.cons_append, List.head?_cons, Option.mem_def, Option.some.injEq] at hy
      rw [← hy]
      obtain ⟨k2, hstep2⟩ := Rounds_head hr
      exact adjacent_rounds hstep hstep2

/-- C18: when `Lex` with `Clean = false` succeeds, the `Raw` of every `Whitespace`
token is a non-empty sequence of space, newline, carriage return and tab runes,
and the rune of the script at its `EndedAt`, if there is one, is none of these;
the `Raw` of every `Ident` token is a non-empty sequence of ASCII letters and
underscores, never a digit, and the rune of the script at its `EndedAt`, if
there is one, is neither; and no two consecutive tokens of the stream are both
`Whitespace` or both `Ident`. -/
theorem Lex_maximal_runs (script : List Char) (ts : List Token)
    (h : Lex ⟨false⟩ script = .ok ts) :
    (∀ t ∈ ts, t.Kind = .Whitespace →
      t.Raw ≠ [] ∧ (∀ c ∈ t.Raw, isWhitespace c = true) ∧
        ∀ c, script[t.Pos.EndedAt]? = some c → isWhitespace c = false) ∧
    (∀ t ∈ ts, t.Kind = .Ident →
      t.Raw ≠ [] ∧ (∀ c ∈ t.Raw, isIdentRune c = true ∧ isDigit c = false) ∧
        ∀ c, script[t.Pos.EndedAt]? = some c → isIdentRune c = false) ∧
    List.Chain' (fun x y : Token => ¬ (x.Kind = .Whitespace ∧ y.Kind = .Whitespace) ∧
      ¬ (x.Kind = .Ident ∧ y.Kind = .Ident)) ts := by
  refine ⟨?_, ?_, ?_⟩
  · intro t ht hk
    obtain ⟨k, hstep⟩ := Lex_ok_steps h t ht (by rw [hk]; simp)
    obtain ⟨hraw, hlen, hne⟩ := scanStep_whitespace hstep hk
    have hend : t.Pos.EndedAt = t.Pos.StartedAt + k := by
      rw [(scanStep_ok hstep).2.2.1]
    refine ⟨by rw [hraw]; exact hne, ?_, ?_⟩
    · intro c hc
      rw [hraw] at hc
      exact (List.mem_takeWhile_imp hc)
    · intro c hc
      rw [hend] at hc
      exact run_next_rune isWhitespace script _ k hlen hc
  · intro t ht hk
    obtain ⟨k, hstep⟩ := Lex_ok_steps h t ht (by rw [hk]; simp)
    obtain ⟨hraw, hlen, hne⟩ := scanStep_ident hstep hk
    have hend : t.Pos.EndedAt = t.Pos.StartedAt + k := by
      rw [(scanStep_ok hstep).2.2.1]
    refine ⟨by rw [hraw]; exact hne, ?_, ?_⟩
    · intro c hc
      rw [hraw] at hc
      have := List.mem_takeWhile_imp hc
      exact ⟨this, identRune_not_digit this⟩
    · intro c hc
      rw [hend] at hc
      exact run_next_rune isIdentRune script _ k hlen hc
  · obtain ⟨body, hr, hts⟩ := Lex_ok_rounds h
    have hf : body.filter (kept ⟨false⟩) = body :=
      List.filter_eq_self.mpr (fun t _ => kept_not_clean t)
    rw [hts, hf]
    exact Rounds_no_adjacent_runs hr _

theorem Lex_maximal_runs_witness :
    Lex ⟨false⟩ sampleScript = .ok sampleStream ∧
      ((∀ t ∈ sampleStream, t.Kind = .Whitespace →
        t.Raw ≠ [] ∧ (∀ c ∈ t.Raw, isWhitespace c = true) ∧
          ∀ c, sampleScript[t.Pos.EndedAt]? = some c → isWhitespace c = false) ∧
      (∀ t ∈ sampleStream, t.Kind = .Ident →
        t.Raw ≠ [] ∧ (∀ c ∈ t.Raw, isIdentRune c = true ∧ isDigit c = false) ∧
          ∀ c, sampleScript[t.Pos.EndedAt]? = some c → isIdentRune c = false) ∧
      List.Chain' (fun x y : Token => ¬ (x.Kind = .Whitespace ∧ y.Kind = .Whitespace) ∧
        ¬ (x.Kind = .Ident ∧ y.Kind = .Ident)) sampleStream) :=
  ⟨by decide, Lex_maximal_runs sampleScript sampleStream (by decide)⟩

/-! ## The raw content and the span -/

theorem quoted_slice {suf raw : List Char} {k : Nat}
    (h : dq :: (raw ++ [dq]) = suf.take k) (hk : k ≤ suf.length) :
    k = raw.length + 2 ∧ suf[0]? = some dq ∧ suf[k - 1]? = some dq ∧
      raw = (suf.drop 1).take (k - 2) := by
  have hl := congrArg List.length h
  simp only [List.length_cons, List.length_append, List.length_nil, List.length_take,
    Nat.min_eq_left hk] at hl
  have hk2 : k = raw.length + 2 := by omega
  obtain ⟨r, hr⟩ : ∃ r, suf = dq :: (raw ++ dq :: r) := by
    refine ⟨suf.drop k, ?_⟩
    have := (List.take_append_drop k suf).symm
    rw [← h] at this
    simpa using this
  subst hk2
  subst hr
  refine ⟨rfl, by simp, ?_, ?_⟩
  · have e : raw.length + 2 - 1 = raw.length + 1 := by omega
    rw [e, List.getElem?_cons_succ, List.getElem?_append_right (Nat.le_refl _)]
    simp
  · have e : raw.length + 2 - 2 = raw.length := by omega
    rw [e, List.drop_succ_cons, List.drop_zero, List.take_left]

/-- C19: when `Lex` succeeds, under either value of `Clean`, every token that is
not `Eof`, with span `[a, b)`, has `b` within the script and: if it is a
`String`, `b ≥ a + 2`, the runes of the script at `a` and at `b - 1` are double
quotes and `Raw` is the runes of the script from `a + 1` up to `b - 2`
included; otherwise `b > a` and `Raw` is the runes of the script from `a` up to
`b - 1` included, so that `len(Raw) = b - a`. -/
theorem Lex_raw_is_slice (opts : LexOptions) (script : List Char) (ts : List Token)
    (h : Lex opts script = .ok ts) :
    ∀ t ∈ ts, t.Kind ≠ .Eof →
      t.Pos.EndedAt ≤ script.length ∧
      (t.Kind = .String →
        t.Pos.StartedAt + 2 ≤ t.Pos.EndedAt ∧
          script[t.Pos.StartedAt]? = some dq ∧ script[t.Pos.EndedAt - 1]? = some dq ∧
          t.Raw = (script.drop (t.Pos.StartedAt + 1)).take
            (t.Pos.EndedAt - t.Pos.StartedAt - 2)) ∧
      (t.Kind ≠ .String →
        t.Pos.StartedAt < t.Pos.EndedAt ∧
          t.Raw = (script.drop t.Pos.StartedAt).take (t.Pos.EndedAt - t.Pos.StartedAt) ∧
          t.Raw.length = t.Pos.EndedAt - t.Pos.StartedAt) := by
  intro t ht hne
  obtain ⟨k, hstep⟩ := Lex_ok_steps h t ht hne
  obtain ⟨hk0, hk, hpos, -, hsrc⟩ := scanStep_ok hstep
  have hend : t.Pos.EndedAt = t.Pos.StartedAt + k := by rw [hpos]
  have hlen : (script.drop t.Pos.StartedAt).length = script.length - t.Pos.StartedAt :=
    List.length_drop _ _
  rw [hlen] at hk
  refine ⟨by omega, ?_, ?_⟩
  · intro hs
    simp only [Token.source, hs, if_true] at hsrc
    obtain ⟨h1, h2, h3, h4⟩ := quoted_slice hsrc (by rw [hlen]; exact hk)
    rw [List.getElem?_drop] at h2 h3
    rw [List.drop_drop] at h4
    refine ⟨by omega, by simpa using h2, ?_, ?_⟩
    · have e : t.Pos.EndedAt - 1 = t.Pos.StartedAt + (k - 1) := by omega
      rw [e]; exact h3
    · have e : t.Pos.EndedAt - t.Pos.StartedAt - 2 = k - 2 := by omega
      rw [e, h4, Nat.add_comm]
  · intro hs
    simp only [Token.source, hs, if_false] at hsrc
    have e : t.Pos.EndedAt - t.Pos.StartedAt = k := by omega
    refine ⟨by omega, by rw [e]; exact hsrc, ?_⟩
    rw [e, hsrc, List.length_take, hlen]
    omega

theorem Lex_raw_is_slice_witness :
    Lex ⟨true⟩ sampleScript = .ok sampleCleanStream ∧
      ∀ t ∈ sampleCleanStream, t.Kind ≠ .Eof →
        t.Pos.EndedAt ≤ sampleScript.length ∧
        (t.Kind = .String →
          t.Pos.StartedAt + 2 ≤ t.Pos.EndedAt ∧
            sampleScript[t.Pos.StartedAt]? = some dq ∧
            sampleScript[t.Pos.EndedAt - 1]? = some dq ∧
            t.Raw = (sampleScript.drop (t.Pos.StartedAt + 1)).take
              (t.Pos.EndedAt - t.Pos.StartedAt - 2)) ∧
        (t.Kind ≠ .String →
          t.Pos.StartedAt < t.Pos.EndedAt ∧
            t.Raw = (sampleScript.drop t.Pos.StartedAt).take
              (t.Pos.EndedAt - t.Pos.StartedAt) ∧
            t.Raw.length = t.Pos.EndedAt - t.Pos.StartedAt) :=
  ⟨by decide, Lex_raw_is_slice ⟨true⟩ sampleScript sampleCleanStream (by decide)⟩

/-! ## The shape of numeric tokens -/

theorem numRun_shape : ∀ (suf : List Char) (df0 : Bool) (run : List Char) (df : Bool),
    numRun df0 suf = .ok (run, df) →
    (df = df0 ∧ ∀ c ∈ run, isDigit c = true) ∨
      (df0 = false ∧ df = true ∧ ∃ d e, run = d ++ '.' :: e ∧
        (∀ c ∈ d, isDigit c = true) ∧ (∀ c ∈ e, isDigit c = true)) := by
  intro suf
  induction suf with
  | nil =>
    intro df0 run df h
    simp only [numRun, Except.ok.injEq, Prod.mk.injEq] at h
    exact Or.inl ⟨h.2.symm, by rw [← h.1]; simp⟩
  | cons c cs ih =>
    intro df0 run df h
    simp only [numRun] at h
    by_cases hdot : c = '.'
    · simp only [hdot, if_true] at h
      cases df0 with
      | true => simp at h
      | false =>
        simp only [Bool.false_eq_true, if_false] at h
        cases hr : numRun true cs with
        | error k => simp [hr] at h
        | ok p =>
          obtain ⟨run1, df1⟩ := p
          simp only [hr, Except.ok.injEq, Prod.mk.injEq] at h
          rcases ih true run1 df1 hr with ⟨hdf, hdig⟩ | ⟨hf, -, -⟩
          · refine Or.inr ⟨rfl, by rw [← h.2, hdf], [], run1, ?_, by simp, hdig⟩
            rw [← h.1]; rfl
          · exact absurd hf (by simp)
    · simp only [hdot, if_false] at h
      by_cases hdig : isDigit c = true
      · simp only [hdig, if_true] at h
        cases hr : numRun df0 cs with
        | error k => simp [hr] at h
        | ok p =>
          obtain ⟨run1, df1⟩ := p
          simp only [hr, Except.ok.injEq, Prod.mk.injEq] at h
          rcases ih df0 run1 df1 hr with ⟨hdf, hd1⟩ | ⟨hf, ht, d, e, hrun, hd, he⟩
          · refine Or.inl ⟨by rw [← h.2, hdf], ?_⟩
            intro x hx
            rw [← h.1] at hx
            rcases List.mem_cons.mp hx with rfl | hx
            · exact hdig
            · exact hd1 x hx
          · refine Or.inr ⟨hf, by rw [← h.2, ht], c :: d, e, ?_, ?_, he⟩
            · rw [← h.1, hrun]; rfl
            · intro x hx
              rcases List.mem_cons.mp hx with rfl | hx
              · exact hdig
              · exact hd x hx
      · have hdig2 : isDigit c = false := by simpa using hdig
        simp only [hdig2, Bool.false_eq_true, if_false, Except.ok.injEq, Prod.mk.injEq] at h
        exact Or.inl ⟨h.2.symm, by rw [← h.1]; simp⟩

theorem numericStep_first {pos : Nat} {c : Char} {rest : List Char} {k : Nat} {t : Token}
    (h : numericStep pos (c :: rest) = .ok (k, t)) :
    (if c = '-' then rest else c :: rest).head? ≠ some '.' := by
  simp only [numericStep] at h
  generalize (if c = '-' then rest else c :: rest) = s1 at h
  cases s1 with
  | nil => simp at h
  | cons d r1 =>
    simp only [] at h
    by_cases hd : d = '.'
    · simp [hd] at h
    · simpa using hd

theorem scanStep_numeric_kind {pos : Nat} {suf : List Char} {k : Nat} {t : Token}
    (h : scanStep pos suf = .ok (k, t)) (hk : t.Kind = .Integer ∨ t.Kind = .Float) :
    numericStep pos suf = .ok (k, t) := by
  cases suf with
  | nil => simp [scanStep] at h
  | cons c rest =>
    simp only [scanStep] at h
    cases hh : handlerOf c with
    | none => simp [hh] at h
    | some hd =>
      simp only [hh] at h
      cases hd with
      | NumericHandler => simpa only [handlerStep] using h
      | WhitespaceHandler =>
        simp only [handlerStep, whitespaceStep, Except.ok.injEq, Prod.mk.injEq] at h
        rw [← h.2] at hk
        simp at hk
      | IdentHandler =>
        simp only [handlerStep, identStep, Except.ok.injEq, Prod.mk.injEq] at h
        rw [← h.2] at hk
        simp at hk
      | StringHandler =>
        simp only [handlerStep] at h
        rw [stringStep_ok h] at hk
        simp at hk
      | SymbolHandler =>
        simp only [handlerStep] at h
        rcases symbolStep_ok h with h1 | h1 | h1 <;> rw [h1] at hk <;> simp at hk

/-- What does hold of numeric tokens: a `Float` is a sign, digits, one dot and
digits, with a digit on either side of the dot; an `Integer` is a sign and
digits, and it has a digit unless it is the sign `-` alone. -/
theorem Lex_numeric_shape (opts : LexOptions) (script : List Char) (ts : List Token)
    (h : Lex opts script = .ok ts) : ∀ t ∈ ts,
    (t.Kind = .Float → ∃ m d e, t.Raw = m ++ d ++ '.' :: e ∧ (m = [] ∨ m = ['-']) ∧
      d ≠ [] ∧ e ≠ [] ∧ (∀ c ∈ d, isDigit c = true) ∧ (∀ c ∈ e, isDigit c = true)) ∧
    (t.Kind = .Integer → ∃ m d, t.Raw = m ++ d ∧ (m = [] ∨ m = ['-']) ∧
      (∀ c ∈ d, isDigit c = true) ∧ (d = [] → m = ['-'])) := by
  intro t ht
  have key : t.Kind = .Integer ∨ t.Kind = .Float →
      ∃ (m s1 run : List Char) (df : Bool), (m = [] ∨ m = ['-']) ∧
        numRun false s1 = .ok (run, df) ∧ s1.head? ≠ some '.' ∧
        t.Raw = m ++ run ∧ t.Kind = (if df then .Float else .Integer) ∧
        (m ++ run).getLast? ≠ some '.' ∧ m ++ run ≠ [] := by
    intro hk
    have hne : t.Kind ≠ .Eof := by rcases hk with h1 | h1 <;> rw [h1] <;> simp
    obtain ⟨k, hstep⟩ := Lex_ok_steps h t ht hne
    have hnum := scanStep_numeric_kind hstep hk
    obtain ⟨c, rest, run, df, hsuf, hrun, -, htok, hlast, hnon⟩ := numericStep_ok hnum
    rw [hsuf] at hnum
    have hfirst := numericStep_first hnum
    refine ⟨if c = '-' then [c] else [], if c = '-' then rest else c :: rest, run, df, ?_,
      hrun, hfirst, by rw [htok], by rw [htok], hlast, hnon⟩
    by_cases hm : c = '-'
    · right; simp [hm]
    · left; simp [hm]
  constructor
  · intro hk
    obtain ⟨m, s1, run, df, hm, hrun, hfirst, hraw, hkind, hlast, -⟩ := key (Or.inr hk)
    have hdf : df = true := by
      cases df with
      | true => rfl
      | false => rw [hk] at hkind; simp at hkind
    subst hdf
    rcases numRun_shape s1 false run true hrun with ⟨hf, -⟩ | ⟨-, -, d, e, hde, hd, he⟩
    · exact absurd hf (by simp)
    · refine ⟨m, d, e, by rw [hraw, hde, List.append_assoc], hm, ?_, ?_, hd, he⟩
      · rintro rfl
        have hpre := numRun_prefix s1 false run true hrun
        have hp := hpre.1
        rw [hde] at hp
        apply hfirst
        cases s1 with
        | nil => simp at hp
        | cons x xs =>
          simp only [List.nil_append, List.length_cons, List.take_succ_cons,
            List.cons.injEq] at hp
          rw [hp.1]; rfl
      · rintro rfl
        apply hlast
        rw [hde, ← List.append_assoc, List.getLast?_concat]
  · intro hk
    obtain ⟨m, s1, run, df, hm, hrun, -, hraw, hkind, -, hnon⟩ := key (Or.inl hk)
    have hdf : df = false := by
      cases df with
      | false => rfl
      | true => rw [hk] at hkind; simp at hkind
    subst hdf
    rcases numRun_shape s1 false run false hrun with ⟨-, hd⟩ | ⟨-, hf, -⟩
    · refine ⟨m, run, hraw, hm, hd, ?_⟩
      rintro rfl
      rcases hm with rfl | rfl
      · exact absurd rfl hnon
      · rfl
    · exact absurd hf (by simp)

/-- C20, refuted on the code: on the script `-a`, under either value of `Clean`,
`Lex` succeeds and its first token is an `Integer` whose `Raw` is the sign `-`
alone, with no digit: `NumericHandler.Handle` consumes the sign, meets no dot
and no digit, and links what it has gathered. -/
theorem Lex_minus_alone_is_integer :
    Lex ⟨false⟩ ['-', 'a'] =
        .ok [⟨⟨0, 1⟩, .Integer, ['-']⟩, ⟨⟨1, 2⟩, .Ident, ['a']⟩, ⟨⟨2, 2⟩, .Eof, []⟩] ∧
      Lex ⟨true⟩ ['-', 'a'] =
        .ok [⟨⟨0, 1⟩, .Integer, ['-']⟩, ⟨⟨1, 2⟩, .Ident, ['a']⟩, ⟨⟨2, 2⟩, .Eof, []⟩] ∧
      ∀ c ∈ ['-'], isDigit c = false := by
  decide

end Walnut
